import Mathlib

/-!
Verification of the pypower `fft_power.py` binning / statistics engine.

The Python source works on IEEE floating-point arrays; we embed its
arithmetic over exact rationals, with an explicit `RVal` type that adds
the non-finite values (`nan`, `inf`, `ninf`) produced by numpy division
and mask assignments.  The transcendental constant `2 * pi` appearing in
the Fourier-space cell size is carried as an explicit positive rational
parameter `tau`; every statement below is proved for all relevant values
of that parameter, hence in particular for (any rational approximation
of, and in the limit, the real) `2 * pi`.  The floating-point square
root `** 0.5` is carried as an explicit function parameter `sq`;
theorems that need it to be a genuine square root say so by hypothesis.
-/

namespace PyPower

/-- Extended real value: a rational, or one of numpy's non-finite floats.
(`nan` also stands for the result of assigning `np.nan` into an array.) -/
inductive RVal where
  | nan : RVal
  | val (q : ℚ) : RVal
  | inf : RVal
  | ninf : RVal
  deriving DecidableEq, Repr

namespace RVal

/-- IEEE-style addition on extended values, as numpy performs it. -/
def add : RVal → RVal → RVal
  | nan, _ => nan
  | _, nan => nan
  | inf, ninf => nan
  | ninf, inf => nan
  | inf, _ => inf
  | _, inf => inf
  | ninf, _ => ninf
  | _, ninf => ninf
  | val a, val b => val (a + b)

/-- IEEE-style negation. -/
def neg : RVal → RVal
  | nan => nan
  | inf => ninf
  | ninf => inf
  | val a => val (-a)

/-- IEEE-style subtraction. -/
def sub (a b : RVal) : RVal := add a (neg b)

/-- IEEE-style multiplication (`inf * 0 = nan`). -/
def mul : RVal → RVal → RVal
  | nan, _ => nan
  | _, nan => nan
  | inf, inf => inf
  | inf, ninf => ninf
  | ninf, inf => ninf
  | ninf, ninf => inf
  | inf, val b => if b > 0 then inf else if b < 0 then ninf else nan
  | val a, inf => if a > 0 then inf else if a < 0 then ninf else nan
  | ninf, val b => if b > 0 then ninf else if b < 0 then inf else nan
  | val a, ninf => if a > 0 then ninf else if a < 0 then inf else nan
  | val a, val b => val (a * b)

/-- IEEE-style division by a (finite or not) value: `0/0 = nan`,
`a/0 = +-inf` for finite nonzero `a` (numpy's zero is positive). -/
def div : RVal → RVal → RVal
  | nan, _ => nan
  | _, nan => nan
  | inf, inf => nan
  | inf, ninf => nan
  | ninf, inf => nan
  | ninf, ninf => nan
  | inf, val b => if b < 0 then ninf else inf
  | ninf, val b => if b < 0 then inf else ninf
  | val _, inf => val 0
  | val _, ninf => val 0
  | val a, val b =>
      if b = 0 then (if a = 0 then nan else if a > 0 then inf else ninf)
      else val (a / b)

/-- `np.isnan`. -/
def isnan : RVal → Bool
  | nan => true
  | _ => false

end RVal

/-- `_nan_to_zero` from `fft_power.py`: replace nans with 0. -/
def nanToZero (v : RVal) : RVal := if v.isnan then RVal.val 0 else v

/-- Exact complex number (pair of rationals), for the field values that
`project_to_basis` accumulates. -/
structure CQ where
  re : ℚ
  im : ℚ
  deriving DecidableEq, Repr

namespace CQ

def add (a b : CQ) : CQ := ⟨a.re + b.re, a.im + b.im⟩

def conj (a : CQ) : CQ := ⟨a.re, -a.im⟩

/-- Scale by a rational (the Legendre weighting is real). -/
def smul (q : ℚ) (a : CQ) : CQ := ⟨q * a.re, q * a.im⟩

/-- Scale by an integer (the hermitian-symmetry sign is `+-1`). -/
def zsmul (z : ℤ) (a : CQ) : CQ := ⟨z * a.re, z * a.im⟩

def zero : CQ := ⟨0, 0⟩

def sum (l : List CQ) : CQ := l.foldr add zero

end CQ

/-- Extended complex value: a pair of extended reals, matching a numpy
complex array entry (either part may be `nan`). -/
structure CVal where
  re : RVal
  im : RVal
  deriving DecidableEq, Repr

namespace CVal

def ofCQ (a : CQ) : CVal := ⟨RVal.val a.re, RVal.val a.im⟩

def add (a b : CVal) : CVal := ⟨a.re.add b.re, a.im.add b.im⟩

def sub (a b : CVal) : CVal := ⟨a.re.sub b.re, a.im.sub b.im⟩

/-- Division of a complex array entry by a real value (numpy divides the
two parts separately when the divisor is real). -/
def divR (a : CVal) (b : RVal) : CVal := ⟨a.re.div b, a.im.div b⟩

/-- `np.isnan` on a complex entry: true when either part is nan. -/
def isnan (a : CVal) : Bool := a.re.isnan || a.im.isnan

end CVal

/-- `_nan_to_zero` on a complex array entry: numpy's fancy assignment
`array[np.isnan(array)] = 0.` zeroes both parts of an entry whose real
or imaginary part is nan. -/
def nanToZeroC (v : CVal) : CVal :=
  if v.isnan then ⟨RVal.val 0, RVal.val 0⟩ else v

/-- `np.digitize(x, edges, right=False)` for sorted `edges`: the number
of edges that are `<= x` (i.e. `searchsorted(edges, x, side='right')`),
so that the return value `i` satisfies `edges[i-1] <= x < edges[i]`. -/
def digitize (x : ℚ) (edges : List ℚ) : ℕ :=
  (edges.filter (fun e => decide (e ≤ x))).length

/-- Legendre polynomial of degree `n` (scipy's `legendre(ell)`), via the
Bonnet recurrence, evaluated exactly. -/
def legendreQ : ℕ → ℚ → ℚ
  | 0, _ => 1
  | 1, x => x
  | n + 2, x =>
      ((2 * (n : ℚ) + 3) * x * legendreQ (n + 1) x - ((n : ℚ) + 1) * legendreQ n x) / ((n : ℚ) + 2)

/-- A stored mode of the 3D array `y3d`: its three coordinates
(`x3d[0], x3d[1], x3d[2]` values at that entry) and its complex value. -/
structure Mode where
  kx : ℚ
  ky : ℚ
  kz : ℚ
  y : CQ
  deriving DecidableEq, Repr

/-- `normSq m` is the squared coordinate norm of the mode (the code takes
`sum(xx**2 for xx in xvec)` before raising to `0.5`). -/
def Mode.normSq (m : Mode) : ℚ := m.kx ^ 2 + m.ky ^ 2 + m.kz ^ 2

/-- The field handed to `project_to_basis`: geometry metadata of `y3d`
plus the list of stored modes. -/
structure Field3D where
  /-- `True` for a `RealField`, `False` for a Fourier-space field. -/
  isReal : Bool
  /-- `y3d.BoxSize`, per axis. -/
  box1 : ℚ
  box2 : ℚ
  box3 : ℚ
  /-- `y3d.Nmesh`, per axis. -/
  n1 : ℕ
  n2 : ℕ
  n3 : ℕ
  /-- `y3d.compressed`: Hermitian compression along the last axis. -/
  compressed : Bool
  /-- The stored modes with their coordinates and values. -/
  modes : List Mode

/-- All inputs of `project_to_basis` (plus the embedding parameters
`tau`, standing for the constant `2 * pi`, and `sq`, standing for the
floating-point `** 0.5`). -/
structure ProjParams where
  tau : ℚ
  sq : ℚ → ℚ
  field : Field3D
  xedges : List ℚ
  muedges : List ℚ
  los1 : ℚ
  los2 : ℚ
  los3 : ℚ
  antisymmetric : Bool
  excludeZero : Bool

namespace ProjParams

/-- `nx = len(xedges) - 1`. -/
def nx (P : ProjParams) : ℕ := P.xedges.length - 1

/-- `nmu = len(muedges) - 1`. -/
def nmu (P : ProjParams) : ℕ := P.muedges.length - 1

/-- `cellsize = y3d.BoxSize / y3d.Nmesh if RealField else 2 pi / y3d.BoxSize`,
per axis. -/
def cellsize1 (P : ProjParams) : ℚ :=
  if P.field.isReal then P.field.box1 / P.field.n1 else P.tau / P.field.box1

def cellsize2 (P : ProjParams) : ℚ :=
  if P.field.isReal then P.field.box2 / P.field.n2 else P.tau / P.field.box2

def cellsize3 (P : ProjParams) : ℚ :=
  if P.field.isReal then P.field.box3 / P.field.n3 else P.tau / P.field.box3

/-- `mincell = np.min(cellsize)`. -/
def mincell (P : ProjParams) : ℚ := min (min P.cellsize1 P.cellsize2) P.cellsize3

/-- `hermitian_symmetric = y3d.compressed`, multiplied by `-1` when
`antisymmetric` (an integer in `{-1, 0, 1}`). -/
def hermSym (P : ProjParams) : ℤ :=
  if P.field.compressed then (if P.antisymmetric then -1 else 1) else 0

/-- `mu = sum(xx * ll for xx, ll in zip(xvec, los))`, before the division
by the norm. -/
def muRaw (P : ProjParams) (m : Mode) : ℚ :=
  m.kx * P.los1 + m.ky * P.los2 + m.kz * P.los3

/-- `muedges[-1]`. -/
def lastMuEdge (P : ProjParams) : ℚ := (P.muedges.getLast?).getD 0

end ProjParams

/-- One accumulation performed by the slab loop of `project_to_basis`:
the flat histogram bin it targets, and the `xnorm`, `mu` and field
values summed there (`ysum` adds `(2 ell + 1) * Legendre(ell, mu) * y`). -/
structure Contrib where
  binx : ℕ
  binmu : ℕ
  xnorm : ℚ
  mu : ℚ
  y : CQ
  deriving DecidableEq, Repr

/-- The `mu`-bin index: `dig_mu = np.digitize(mu.flat, muedges)`, then
`dig_mu[mu == muedges[-1]] = nmu` (last bin inclusive), then
`dig_mu[mask_zero] = nmu + 2`. -/
def muBinIndex (P : ProjParams) (zero : Bool) (mu : ℚ) : ℕ :=
  if zero then P.nmu + 2
  else if mu = P.lastMuEdge then P.nmu
  else digitize mu P.muedges

/-- The contributions of one stored mode, translated from the slab loop
of `project_to_basis` (fft_power.py lines 263-325): the first pass uses
`(mu, y)`; when the field is Hermitian-compressed a second pass uses
`(-mu, hermitian_symmetric * conj(y))` and is kept only where the
frequency along the compression (last) axis is strictly positive
(`nonsingular = x3d[-1][0] > 0`). -/
def contribsOf (P : ProjParams) (m : Mode) : List Contrib :=
  let xnorm := P.sq m.normSq
  let zero : Bool := decide (xnorm < P.mincell / 2)
  let digx : ℕ := if zero then P.nx + 2 else digitize xnorm P.xedges
  let mu0 : ℚ := if zero then P.muRaw m else P.muRaw m / xnorm
  let mk : ℚ → CQ → Contrib := fun mu y =>
    { binx := digx, binmu := muBinIndex P zero mu, xnorm := xnorm, mu := mu, y := y }
  if P.hermSym = 0 then [mk mu0 m.y]
  else
    mk mu0 m.y ::
      (if 0 < m.kz then [mk (-mu0) (CQ.zsmul P.hermSym m.y.conj)] else [])

/-- All accumulations of the slab loop, over every stored mode. -/
def allContribs (P : ProjParams) : List Contrib :=
  P.field.modes.flatMap (contribsOf P)

/-- `nsum` histogram entry at flat bin `b` (row `b.1`, column `b.2`). -/
def nsum (P : ProjParams) (b : ℕ × ℕ) : ℕ :=
  ((allContribs P).filter (fun c => c.binx = b.1 ∧ c.binmu = b.2)).length

/-- `xsum` histogram entry. -/
def xsum (P : ProjParams) (b : ℕ × ℕ) : ℚ :=
  (((allContribs P).filter (fun c => c.binx = b.1 ∧ c.binmu = b.2)).map Contrib.xnorm).sum

/-- `musum` histogram entry. -/
def musum (P : ProjParams) (b : ℕ × ℕ) : ℚ :=
  (((allContribs P).filter (fun c => c.binx = b.1 ∧ c.binmu = b.2)).map Contrib.mu).sum

/-- `ysum` histogram entry for multipole order `ell` (the array row of
`unique_ells.index(ell)`): sum of `(2 ell + 1) * Legendre(ell, mu) * y`. -/
def ysum (P : ProjParams) (ell : ℕ) (b : ℕ × ℕ) : CQ :=
  CQ.sum (((allContribs P).filter (fun c => c.binx = b.1 ∧ c.binmu = b.2)).map
    (fun c => CQ.smul ((2 * (ell : ℚ) + 1) * legendreQ ell c.mu) c.y))

/-- `xmax = y3d.Nmesh // 2 * cellsize`, per axis. -/
def xmax1 (P : ProjParams) : ℚ := ((P.field.n1 / 2 : ℕ) : ℚ) * P.cellsize1

def xmax2 (P : ProjParams) : ℚ := ((P.field.n2 / 2 : ℕ) : ℚ) * P.cellsize2

def xmax3 (P : ProjParams) : ℚ := ((P.field.n3 / 2 : ℕ) : ℚ) * P.cellsize3

/-- `np.min(xmax)`. -/
def minXmax (P : ProjParams) : ℚ := min (min (xmax1 P) (xmax2 P)) (xmax3 P)

/-- `mask_beyond_nyq = np.flatnonzero(xedges >= np.min(xmax))`: whether
histogram row `i` is invalidated (rows are indexed by edge position). -/
def maskRow (P : ProjParams) (i : ℕ) : Bool :=
  decide (i < P.xedges.length) && decide (minXmax P ≤ P.xedges.getD i 0)

/-- `xsum` after the beyond-Nyquist rows are overwritten with `np.nan`. -/
def xsumM (P : ProjParams) (b : ℕ × ℕ) : RVal :=
  if maskRow P b.1 then RVal.nan else RVal.val (xsum P b)

/-- `musum` after the beyond-Nyquist mask. -/
def musumM (P : ProjParams) (b : ℕ × ℕ) : RVal :=
  if maskRow P b.1 then RVal.nan else RVal.val (musum P b)

/-- `ysum` after the beyond-Nyquist mask (assigning the real `np.nan`
into a complex array sets the entry to `nan + 0j`). -/
def ysumM (P : ProjParams) (ell : ℕ) (b : ℕ × ℕ) : CVal :=
  if maskRow P b.1 then ⟨RVal.nan, RVal.val 0⟩ else CVal.ofCQ (ysum P ell b)

/-- `nsum` after the beyond-Nyquist rows are zeroed. -/
def nsumM (P : ProjParams) (b : ℕ × ℕ) : ℕ :=
  if maskRow P b.1 then 0 else nsum P b

/-- The dedicated zero-norm bin `(nx + 2, nmu + 2)`. -/
def zeroBin (P : ProjParams) : ℕ × ℕ := (P.nx + 2, P.nmu + 2)

/-- `dig_zero = tuple(np.digitize(0., edges) for edges in [xedges, muedges])`. -/
def digZero (P : ProjParams) : ℕ × ℕ :=
  (digitize 0 P.xedges, digitize 0 P.muedges)

/-- `xsum` after the zero-bin fold (`xsum[dig_zero] += xsum[nx+2, nmu+2]`
unless `exclude_zero`). -/
def xsumF (P : ProjParams) (b : ℕ × ℕ) : RVal :=
  if ¬ P.excludeZero ∧ b = digZero P then (xsumM P b).add (xsumM P (zeroBin P))
  else xsumM P b

/-- `musum` after the zero-bin fold. -/
def musumF (P : ProjParams) (b : ℕ × ℕ) : RVal :=
  if ¬ P.excludeZero ∧ b = digZero P then (musumM P b).add (musumM P (zeroBin P))
  else musumM P b

/-- `ysum` after the zero-bin fold. -/
def ysumF (P : ProjParams) (ell : ℕ) (b : ℕ × ℕ) : CVal :=
  if ¬ P.excludeZero ∧ b = digZero P then (ysumM P ell b).add (ysumM P ell (zeroBin P))
  else ysumM P ell b

/-- `nsum` after the zero-bin fold. -/
def nsumF (P : ProjParams) (b : ℕ × ℕ) : ℕ :=
  if ¬ P.excludeZero ∧ b = digZero P then nsumM P b + nsumM P (zeroBin P)
  else nsumM P b

/-- Output 2D bin `(i, j)` (the slice `[1:-2, 1:-2]` of the padded
histogram): number of modes, `n2d`. -/
def n2d (P : ProjParams) (i j : ℕ) : ℕ := nsumF P (i + 1, j + 1)

/-- Output mean `x`: `(xsum / nsum)[1:-2, 1:-2]`. -/
def xmean2d (P : ProjParams) (i j : ℕ) : RVal :=
  (xsumF P (i + 1, j + 1)).div (RVal.val (nsumF P (i + 1, j + 1)))

/-- Output mean `mu`: `(musum / nsum)[1:-2, 1:-2]`. -/
def mumean2d (P : ProjParams) (i j : ℕ) : RVal :=
  (musumF P (i + 1, j + 1)).div (RVal.val (nsumF P (i + 1, j + 1)))

/-- Output mean field value: `(ysum[0] / nsum)[1:-2, 1:-2]` (row 0 of
`ysum` is the monopole, since `unique_ells` is sorted and contains 0). -/
def y2d (P : ProjParams) (i j : ℕ) : CVal :=
  (ysumF P 0 (i + 1, j + 1)).divR (RVal.val (nsumF P (i + 1, j + 1)))

/-- `zero2d = ysum[0, nx + 2, nmu + 2]`, read after the fold. -/
def zero2d (P : ProjParams) : CVal := ysumF P 0 (zeroBin P)

/-- `poles_zero = ysum[:, nx + 2, nmu + 2]` at requested order `ell`,
read after the fold. -/
def polesZero (P : ProjParams) (ell : ℕ) : CVal := ysumF P ell (zeroBin P)

/-- Claim C2, spec side: the Nyquist frequency as the claim computes it,
`pi * N / boxsize` per axis (`pi = tau / 2`), minimum over the axes. -/
def nyquistPiNL (P : ProjParams) : ℚ :=
  min (min (P.tau / 2 * P.field.n1 / P.field.box1)
           (P.tau / 2 * P.field.n2 / P.field.box2))
      (P.tau / 2 * P.field.n3 / P.field.box3)

/-- Claim C2 as stated: for every input field (real or Fourier) and
every (sorted) edge configuration, an output bin whose lower edge is at
or beyond `min_axis pi * N / boxsize` has NaN means and zero count.
(`tau` stands for `2 * pi`; the hypothesis `4 < tau` keeps the true
value `2 * pi ~ 6.28` admissible.) -/
def nyquistMaskClaim : Prop :=
  ∀ P : ProjParams, 4 < P.tau →
    0 < P.field.box1 → 0 < P.field.box2 → 0 < P.field.box3 →
    1 ≤ P.field.n1 → 1 ≤ P.field.n2 → 1 ≤ P.field.n3 →
    P.xedges.Sorted (· < ·) →
    ∀ i j : ℕ, i < P.nx → j < P.nmu →
      nyquistPiNL P ≤ P.xedges.getD i 0 →
      xmean2d P i j = RVal.nan ∧ mumean2d P i j = RVal.nan ∧
        y2d P i j = ⟨RVal.nan, RVal.nan⟩ ∧ n2d P i j = 0

/-- Claim C2 counterexample input: a real-space field on a box of side 8
with mesh 2, a single stored mode of norm 2 falling in the single output
bin `[2, 3)`.  The claimed threshold is `pi * 2 / 8 = tau / 8 < 1`, but
the code's threshold for a real field is `(N // 2) * (boxsize / N) = 4`,
so the bin is not invalidated. -/
def counterexC2 : ProjParams :=
  { tau := 6
    sq := fun q => if q = 4 then 2 else 0
    field :=
      { isReal := true, box1 := 8, box2 := 8, box3 := 8,
        n1 := 2, n2 := 2, n3 := 2, compressed := false,
        modes := [{ kx := 2, ky := 0, kz := 0, y := { re := 1, im := 0 } }] }
    xedges := [2, 3]
    muedges := [-1, 1]
    los1 := 0, los2 := 0, los3 := 1
    antisymmetric := false
    excludeZero := false }

/-- A concrete Fourier-space configuration: box 6, mesh 2 per axis, one
stored mode of norm 1 in the single bin `[1, 2)`, whose lower edge sits
exactly at the Nyquist threshold. -/
def witnessC2 : ProjParams :=
  { tau := 6
    sq := fun q => if q = 1 then 1 else 0
    field :=
      { isReal := false, box1 := 6, box2 := 6, box3 := 6,
        n1 := 2, n2 := 2, n3 := 2, compressed := false,
        modes := [{ kx := 1, ky := 0, kz := 0, y := { re := 1, im := 0 } }] }
    xedges := [1, 2]
    muedges := [-1, 1]
    los1 := 0, los2 := 0, los3 := 1
    antisymmetric := false
    excludeZero := false }

/-- A concrete Hermitian-compressed configuration with one mode on the
compression plane (`kz = 0` replaced by `kz = 1 > 0`) and one with
negative `kz`. -/
def witnessC1 : ProjParams :=
  { tau := 6
    sq := fun _ => 1
    field :=
      { isReal := false, box1 := 6, box2 := 6, box3 := 6,
        n1 := 2, n2 := 2, n3 := 2, compressed := true,
        modes := [{ kx := 0, ky := 0, kz := 1, y := { re := 1, im := 2 } },
                  { kx := 1, ky := 0, kz := -1, y := { re := 3, im := -1 } }] }
    xedges := [0, 1, 2]
    muedges := [-1, 1]
    los1 := 0, los2 := 0, los3 := 1
    antisymmetric := true
    excludeZero := false }

/-- A concrete configuration with three `mu`-edges, to exercise the
half-open / last-bin-closed binning rule. -/
def witnessC4 : ProjParams :=
  { witnessC1 with muedges := [-1, 0, 1] }

/-- A concrete Fourier-space configuration containing the zero mode
(routed to the dedicated zero bin) and one ordinary mode. -/
def witnessC3 : ProjParams :=
  { tau := 6
    sq := fun q => if q = 0 then 0 else 1
    field :=
      { isReal := false, box1 := 6, box2 := 6, box3 := 6,
        n1 := 2, n2 := 2, n3 := 2, compressed := false,
        modes := [{ kx := 0, ky := 0, kz := 0, y := { re := 2, im := 3 } },
                  { kx := 1, ky := 0, kz := 0, y := { re := 1, im := 0 } }] }
    xedges := [0, 1, 2]
    muedges := [-1, 1]
    los1 := 0, los2 := 0, los3 := 1
    antisymmetric := false
    excludeZero := false }

/-- Claim C1, spec side: the single (first-pass) accumulation of a
stored mode. -/
def firstPassContrib (P : ProjParams) (m : Mode) : Contrib :=
  let xnorm := P.sq m.normSq
  let zero : Bool := decide (xnorm < P.mincell / 2)
  let mu0 : ℚ := if zero then P.muRaw m else P.muRaw m / xnorm
  { binx := if zero then P.nx + 2 else digitize xnorm P.xedges
    binmu := muBinIndex P zero mu0
    xnorm := xnorm, mu := mu0, y := m.y }

/-- Claim C1, spec side: the mirror accumulation of a stored mode — the
angle cosine negated (`mu -> -mu`), the field value conjugated and
weighted by `-1` when antisymmetric, `+1` otherwise. -/
def mirrorPassContrib (P : ProjParams) (m : Mode) : Contrib :=
  let xnorm := P.sq m.normSq
  let zero : Bool := decide (xnorm < P.mincell / 2)
  let mu0 : ℚ := if zero then P.muRaw m else P.muRaw m / xnorm
  { binx := if zero then P.nx + 2 else digitize xnorm P.xedges
    binmu := muBinIndex P zero (-mu0)
    xnorm := xnorm, mu := -mu0
    y := CQ.zsmul (if P.antisymmetric then -1 else 1) m.y.conj }

/-- Multiplication of a complex array entry by a real value (numpy
multiplies the two parts separately). -/
def CVal.mulR (a : CVal) (b : RVal) : CVal := ⟨a.re.mul b, a.im.mul b⟩

/-- Fold-sum of extended complex values, starting from `0.` as `np.sum`
does. -/
def csum (l : List CVal) : CVal := l.foldl CVal.add ⟨RVal.val 0, RVal.val 0⟩

/-- A one-dimensional `BasePowerSpectrumStatistics` instance: per-bin
arrays (`edges`, `modes`, `power_nonorm`, `power_direct_nonorm`,
`nmodes`) and the scalars `power_zero_nonorm`, `wnorm`,
`shotnoise_nonorm`. -/
structure Stats1D where
  edges : List ℚ
  modes : List RVal
  power_nonorm : List CVal
  power_zero_nonorm : CVal
  power_direct_nonorm : List CVal
  nmodes : List ℕ
  wnorm : ℚ
  shotnoise_nonorm : ℚ

/-- A `PowerSpectrumMultipoles` instance: the same data with one row per
multipole order in `ells` (and one `power_zero_nonorm` entry per row). -/
structure StatsPoles where
  ells : List ℕ
  edges : List ℚ
  modes : List RVal
  power_nonorm : List (List CVal)
  power_zero_nonorm : List CVal
  power_direct_nonorm : List (List CVal)
  nmodes : List ℕ
  wnorm : ℚ
  shotnoise_nonorm : ℚ

/-- The complex scalar `shotnoise_nonorm + 0j` that numpy broadcasts
when subtracting the real shot noise from a complex array. -/
def Stats1D.snC (s : Stats1D) : CVal := ⟨RVal.val s.shotnoise_nonorm, RVal.val 0⟩

def StatsPoles.snC (s : StatsPoles) : CVal := ⟨RVal.val s.shotnoise_nonorm, RVal.val 0⟩

/-- `BasePowerSpectrumStatistics.get_power` (fft_power.py lines 509-549),
complex result (`complex=True`): copy `power_nonorm`, optionally add
`power_direct_nonorm`, subtract `shotnoise_nonorm`, subtract
`power_zero_nonorm / nmodes[dig_zero]` at the bin `dig_zero =
digitize(0., edges) - 1` when it is within the shape, divide by `wnorm`. -/
def getPowerBaseC (s : Stats1D)
    (add_direct remove_shotnoise null_zero_mode divide_wnorm : Bool) :
    List CVal :=
  let t1 := if add_direct
    then List.zipWith CVal.add s.power_nonorm s.power_direct_nonorm
    else s.power_nonorm
  let t2 := if remove_shotnoise then t1.map (fun c => c.sub s.snC) else t1
  let dz := digitize 0 s.edges
  let t3 := if null_zero_mode ∧ 1 ≤ dz ∧ dz - 1 < s.edges.length - 1
    then t2.modify
      (fun c => c.sub (s.power_zero_nonorm.divR
        (RVal.val (s.nmodes.getD (dz - 1) 0)))) (dz - 1)
    else t2
  if divide_wnorm then t3.map (fun c => c.divR (RVal.val s.wnorm)) else t3

/-- `BasePowerSpectrumStatistics.get_power` with `complex=False`: the
real part of the complex result. -/
def getPowerBaseReal (s : Stats1D)
    (add_direct remove_shotnoise null_zero_mode divide_wnorm : Bool) :
    List RVal :=
  (getPowerBaseC s add_direct remove_shotnoise null_zero_mode divide_wnorm).map
    CVal.re

/-- The `super().get_power(..., remove_shotnoise=False, divide_wnorm=False,
complex=True)` call inside `PowerSpectrumMultipoles.get_power`: add the
direct power, then subtract `power_zero_nonorm[ill] / nmodes[dig_zero]`
at column `dig_zero` of every row. -/
def basePass2D (s : StatsPoles) (add_direct null_zero_mode : Bool) :
    List (List CVal) :=
  let t1 := if add_direct
    then List.zipWith (List.zipWith CVal.add) s.power_nonorm s.power_direct_nonorm
    else s.power_nonorm
  let dz := digitize 0 s.edges
  if null_zero_mode ∧ 1 ≤ dz ∧ dz - 1 < s.edges.length - 1
  then List.zipWith
    (fun row z => row.modify
      (fun c => c.sub (z.divR (RVal.val (s.nmodes.getD (dz - 1) 0)))) (dz - 1))
    t1 s.power_zero_nonorm
  else t1

/-- `PowerSpectrumMultipoles.get_power` (fft_power.py lines 1133-1166),
complex result: the base pass with shot-noise and normalization
deferred, then `toret[ells.index(0)] -= shotnoise_nonorm` when
`remove_shotnoise` and `0 in ells`, then division by `wnorm`. -/
def getPowerPolesC (s : StatsPoles)
    (add_direct remove_shotnoise null_zero_mode divide_wnorm : Bool) :
    List (List CVal) :=
  let t1 := basePass2D s add_direct null_zero_mode
  let t2 := if remove_shotnoise ∧ 0 ∈ s.ells
    then t1.modify (fun row => row.map (fun c => c.sub s.snC))
      (s.ells.indexOf 0)
    else t1
  if divide_wnorm then t2.map (fun row => row.map (fun c => c.divR (RVal.val s.wnorm)))
  else t2

/-- `PowerSpectrumMultipoles.get_power` with `complex=False`: real part
for even multipole orders, imaginary part for odd orders. -/
def getPowerPolesReal (s : StatsPoles)
    (add_direct remove_shotnoise null_zero_mode divide_wnorm : Bool) :
    List (List RVal) :=
  List.zipWith
    (fun ell row => row.map (fun c => if ell % 2 = 0 then c.re else c.im))
    s.ells
    (getPowerPolesC s add_direct remove_shotnoise null_zero_mode divide_wnorm)

/-- The complex zero `0 + 0j`. -/
def czero : CVal := ⟨RVal.val 0, RVal.val 0⟩

/-- Claim C5, spec side: the fully-corrected power spectrum in the
claimed fixed order — add `power_direct_nonorm`, then subtract
`shotnoise_nonorm`, then subtract `power_zero_nonorm / nmodes[zero]` at
the bin the digitize rule assigns to `x = 0` (when within the shape),
then divide by `wnorm`. -/
def specPowerBase (s : Stats1D) : List CVal :=
  let dz := digitize 0 s.edges
  (List.range s.power_nonorm.length).map (fun i =>
    let v := (s.power_nonorm.getD i czero).add (s.power_direct_nonorm.getD i czero)
    let v := v.sub s.snC
    let v := if 1 ≤ dz ∧ dz - 1 < s.edges.length - 1 ∧ dz - 1 = i
      then v.sub (s.power_zero_nonorm.divR (RVal.val (s.nmodes.getD (dz - 1) 0)))
      else v
    v.divR (RVal.val s.wnorm))

/-- Claim C5, spec side, multipole variant: same fixed order, with the
shot noise subtracted (only) from the row at `ells.index(0)`. -/
def specPowerPoles (s : StatsPoles) : List (List CVal) :=
  let dz := digitize 0 s.edges
  (List.range s.power_nonorm.length).map (fun ill =>
    let row := s.power_nonorm.getD ill []
    let drow := s.power_direct_nonorm.getD ill []
    (List.range row.length).map (fun i =>
      let v := (row.getD i czero).add (drow.getD i czero)
      let v := if 0 ∈ s.ells ∧ s.ells.indexOf 0 = ill then v.sub s.snC else v
      let v := if 1 ≤ dz ∧ dz - 1 < s.edges.length - 1 ∧ dz - 1 = i
        then v.sub ((s.power_zero_nonorm.getD ill czero).divR
          (RVal.val (s.nmodes.getD (dz - 1) 0)))
        else v
      v.divR (RVal.val s.wnorm)))

/-- A concrete one-dimensional statistics instance (one empty bin with
NaN entries, one filled bin). -/
def witnessStats1D : Stats1D :=
  { edges := [0, 1, 2]
    modes := [RVal.val 1, RVal.nan]
    power_nonorm := [⟨RVal.val 2, RVal.val 1⟩, ⟨RVal.nan, RVal.nan⟩]
    power_zero_nonorm := ⟨RVal.val 5, RVal.val 0⟩
    power_direct_nonorm := [czero, czero]
    nmodes := [3, 0]
    wnorm := 2
    shotnoise_nonorm := 1 }

/-- A concrete multipole statistics instance with orders 0 and 2. -/
def witnessStatsPoles : StatsPoles :=
  { ells := [0, 2]
    edges := [0, 1]
    modes := [RVal.val 1]
    power_nonorm := [[⟨RVal.val 1, RVal.val 0⟩], [⟨RVal.val 0, RVal.val 1⟩]]
    power_zero_nonorm := [⟨RVal.val 4, RVal.val 0⟩, czero]
    power_direct_nonorm := [[czero], [czero]]
    nmodes := [2]
    wnorm := 1
    shotnoise_nonorm := 3 }

/-- Fold-sum of exact complex values from zero (left fold, as `np.sum`
accumulates). -/
def qsum (l : List CQ) : CQ := l.foldl CQ.add CQ.zero

/-- Modelled from the spec: `utils.rebin(array, new_shape,
statistic=np.sum)` lives in `pypower/utils.py`, which is not among the
sources; spec section 4.6 says count-like fields are "re-summed" by
grouping `factor` consecutive bins per axis.  `groupSumN f l j` is the
summed block `j` of a count array. -/
def groupSumN (f : ℕ) (l : List ℕ) (j : ℕ) : ℕ :=
  ((List.range f).map (fun i => l.getD (j * f + i) 0)).sum

/-- Modelled from the spec: `utils.rebin` with `np.sum` on a count
array (one group per `factor` consecutive bins). -/
def rebinSumN (f : ℕ) (l : List ℕ) : List ℕ :=
  (List.range (l.length / f)).map (groupSumN f l)

/-- Modelled from the spec: one summed block of a real-valued array. -/
def groupSumR (f : ℕ) (l : List RVal) (j : ℕ) : RVal :=
  ((List.range f).map (fun i => l.getD (j * f + i) (RVal.val 0))).foldl
    RVal.add (RVal.val 0)

/-- Modelled from the spec: `utils.rebin` with `np.sum` on a real
array. -/
def rebinSumR (f : ℕ) (l : List RVal) : List RVal :=
  (List.range (l.length / f)).map (groupSumR f l)

/-- Modelled from the spec: one summed block of a complex array. -/
def groupSumC (f : ℕ) (l : List CVal) (j : ℕ) : CVal :=
  ((List.range f).map (fun i => l.getD (j * f + i) czero)).foldl CVal.add czero

/-- Modelled from the spec: `utils.rebin` with `np.sum` on a complex
array. -/
def rebinSumC (f : ℕ) (l : List CVal) : List CVal :=
  (List.range (l.length / f)).map (groupSumC f l)

/-- The weighting `_nan_to_zero(arr) * nmodes` applied by `rebin` to an
averaged real array before grouping. -/
def weightR (arr : List RVal) (nmodes : List ℕ) : List RVal :=
  List.zipWith (fun v (n : ℕ) => (nanToZero v).mul (RVal.val (n : ℚ))) arr nmodes

/-- The weighting `_nan_to_zero(arr) * nmodes` on a complex array. -/
def weightC (arr : List CVal) (nmodes : List ℕ) : List CVal :=
  List.zipWith (fun v (n : ℕ) => (nanToZeroC v).mulR (RVal.val (n : ℚ))) arr nmodes

/-- `rebin` of an averaged real array: group-sum the count-weighted
values and divide by the new grouped counts. -/
def rebinAvgR (f : ℕ) (nmodes : List ℕ) (arr : List RVal) : List RVal :=
  List.zipWith (fun sv n => sv.div (RVal.val n))
    (rebinSumR f (weightR arr nmodes)) (rebinSumN f nmodes)

/-- `rebin` of an averaged complex array. -/
def rebinAvgC (f : ℕ) (nmodes : List ℕ) (arr : List CVal) : List CVal :=
  List.zipWith (fun sv n => sv.divR (RVal.val n))
    (rebinSumC f (weightC arr nmodes)) (rebinSumN f nmodes)

/-- `edges[::factor]`. -/
def strideEdges (f : ℕ) (l : List ℚ) : List ℚ :=
  (List.range ((l.length + f - 1) / f)).map (fun j => l.getD (j * f) 0)

/-- `BasePowerSpectrumStatistics.rebin` (fft_power.py lines 687-721) on
a one-dimensional statistics instance: a zero factor raises Python's
`ZeroDivisionError` in `shape % factor`; a non-divisor factor raises
`ValueError`; otherwise `nmodes` is re-summed first and every averaged
field is re-averaged using the old counts as weights and the new
grouped counts as denominators; the edges are strided. -/
def rebinStats (s : Stats1D) (f : ℕ) : Except String Stats1D :=
  if f = 0 then Except.error "ZeroDivisionError"
  else if (s.edges.length - 1) % f ≠ 0 then
    Except.error "Rebinning factor must divide shape"
  else Except.ok
    { edges := strideEdges f s.edges
      modes := rebinAvgR f s.nmodes s.modes
      power_nonorm := rebinAvgC f s.nmodes s.power_nonorm
      power_zero_nonorm := s.power_zero_nonorm
      power_direct_nonorm := rebinAvgC f s.nmodes s.power_direct_nonorm
      nmodes := rebinSumN f s.nmodes
      wnorm := s.wnorm
      shotnoise_nonorm := s.shotnoise_nonorm }

/-- Claim C6, spec side: the count-weighted sum of group `j`'s exact
per-bin values (bins with zero count contribute nothing). -/
def groupWeightedC (f : ℕ) (nmodes : List ℕ) (vv : List CQ) (j : ℕ) : CQ :=
  qsum ((List.range f).map (fun i =>
    CQ.smul ((nmodes.getD (j * f + i) 0 : ℕ) : ℚ) (vv.getD (j * f + i) CQ.zero)))

/-- Claim C6, spec side: the exact `nmodes`-weighted mean of the
constituent bins of group `j` — NaN when the grouped count is zero. -/
def weightedMeanSpecC (f : ℕ) (nmodes : List ℕ) (vv : List CQ) (j : ℕ) : CVal :=
  if groupSumN f nmodes j = 0 then ⟨RVal.nan, RVal.nan⟩
  else CVal.ofCQ
    ⟨(groupWeightedC f nmodes vv j).re / (groupSumN f nmodes j : ℚ),
      (groupWeightedC f nmodes vv j).im / (groupSumN f nmodes j : ℚ)⟩

/-- Claim C6, spec side, real arrays: the count-weighted sum of group
`j`. -/
def groupWeightedR (f : ℕ) (nmodes : List ℕ) (vv : List ℚ) (j : ℕ) : ℚ :=
  (((List.range f).map (fun i =>
    ((nmodes.getD (j * f + i) 0 : ℕ) : ℚ) * vv.getD (j * f + i) 0)).foldl (· + ·) 0)

/-- Claim C6, spec side, real arrays: the exact weighted mean of group
`j`. -/
def weightedMeanSpecR (f : ℕ) (nmodes : List ℕ) (vv : List ℚ) (j : ℕ) : RVal :=
  if groupSumN f nmodes j = 0 then RVal.nan
  else RVal.val (groupWeightedR f nmodes vv j / (groupSumN f nmodes j : ℚ))

/-- Claim C7 as stated: `rebin(1)` is a no-op on every statistics
instance. -/
def rebinNoOpClaim : Prop := ∀ s : Stats1D, rebinStats s 1 = Except.ok s

/-- Claim C7 counterexample input: a single empty bin whose averaged
entries hold finite values (0) rather than NaN; `rebin(1)` turns them
into NaN. -/
def counterexC7 : Stats1D :=
  { edges := [0, 1]
    modes := [RVal.val 0]
    power_nonorm := [czero]
    power_zero_nonorm := czero
    power_direct_nonorm := [czero]
    nmodes := [0]
    wnorm := 1
    shotnoise_nonorm := 0 }

/-- A statistics instance whose averaged entries are NaN exactly on its
empty bin — the class on which `rebin(1)` is the identity. -/
def witnessC7 : Stats1D :=
  { edges := [0, 1, 2]
    modes := [RVal.val 1, RVal.nan]
    power_nonorm := [⟨RVal.val 2, RVal.val 1⟩, ⟨RVal.nan, RVal.nan⟩]
    power_zero_nonorm := ⟨RVal.val 5, RVal.val 0⟩
    power_direct_nonorm := [czero, ⟨RVal.nan, RVal.nan⟩]
    nmodes := [3, 0]
    wnorm := 2
    shotnoise_nonorm := 1 }

/-- The allowed line-of-sight keywords of `_get_los` (as character
lists, since the embedding lower-cases character by character). -/
def allowedLos : List (List Char) :=
  ["firstpoint".data, "endpoint".data, "x".data, "y".data, "z".data]

/-- The result of `_get_los` on a keyword input: a local line-of-sight
kind, or a global Cartesian axis index. -/
inductive LosSpec where
  | localLos (kind : List Char) : LosSpec
  | globalAxis (axis : ℕ) : LosSpec
  deriving DecidableEq, Repr

/-- `_get_los` (fft_power.py lines 1423-1447) restricted to string
inputs: lower-case the keyword, reject anything outside `allowed_los`,
map 'firstpoint' / 'endpoint' to a local line of sight and 'x', 'y',
'z' to the corresponding global axis (`'xyz'.index(los)`). -/
def getLosStr (los : List Char) : Except String LosSpec :=
  let l := los.map Char.toLower
  if l ∈ allowedLos then
    if l = "firstpoint".data ∨ l = "endpoint".data then
      Except.ok (LosSpec.localLos l)
    else
      Except.ok (LosSpec.globalAxis
        (if l = "x".data then 0 else if l = "y".data then 1 else 2))
  else
    Except.error "los should be one of [firstpoint, endpoint, x, y, z]"

/-- Whether the line of sight is global (a fixed axis). -/
def LosSpec.isGlobal : LosSpec → Bool
  | LosSpec.globalAxis _ => true
  | _ => false

/-- `MeshFFTBase._set_ells` (fft_power.py lines 1573-1586) for an
explicit tuple of multipole orders (or `None`). -/
def setElls (ells : Option (List ℤ)) (losIsGlobal : Bool) :
    Except String (Option (List ℤ)) :=
  match ells with
  | none =>
      if losIsGlobal then Except.ok none
      else Except.error "Specify non-empty list of ells"
  | some l =>
      if ¬ losIsGlobal ∧ l = [] then
        Except.error "Specify non-empty list of ells"
      else if l.any (fun ell => ell < 0) then
        Except.error "Multipole numbers must be non-negative integers"
      else Except.ok (some l)

/-- `MeshFFTPower._set_edges` (fft_power.py lines 1744-1774) for
explicitly provided edge arrays: `mu`-edges default to `[-1, 1]`; more
than one `mu`-wedge is rejected for a local line of sight; either edge
array of fewer than two entries is rejected. -/
def setEdges (kedges : List ℚ) (muedges : Option (List ℚ))
    (losIsGlobal : Bool) : Except String (List ℚ × List ℚ) :=
  let mu := match muedges with
    | none => some ([-1, 1] : List ℚ)
    | some m => if ¬ losIsGlobal ∧ 2 < m.length then none else some m
  match mu with
  | none => Except.error "Cannot compute wedges with local line-of-sight"
  | some m =>
      if kedges.length < 2 then Except.error "k-edges are of size < 2"
      else if m.length < 2 then Except.error "mu-edges are of size < 2"
      else Except.ok (kedges, m)

/-- The estimator configuration relevant to the validated inputs. -/
structure MeshPowerConfig where
  los : List Char
  ells : Option (List ℤ)
  kedges : List ℚ
  muedges : Option (List ℚ)

/-- `MeshFFTPower.__init__`: the validation steps in source order
(`_set_los`, `_set_ells`, `_set_edges`), then the measurement `run()`.
The transform-and-binning phase is the parameter `run`, so a
configuration error provably never reaches it (the `Except` bind
short-circuits for every possible `run`, with no retry). -/
def meshPowerInit {α : Type}
    (run : LosSpec → Option (List ℤ) → List ℚ × List ℚ → α)
    (cfg : MeshPowerConfig) : Except String α :=
  (getLosStr cfg.los).bind (fun los =>
    (setElls cfg.ells los.isGlobal).bind (fun ells =>
      (setEdges cfg.kedges cfg.muedges los.isGlobal).bind (fun edges =>
        Except.ok (run los ells edges))))

/-- Claim C9 as stated: each configuration error — a line-of-sight
keyword outside the literal set {'firstpoint', 'endpoint', 'x', 'y',
'z'}, a negative multipole order, a too-short edge array — makes the
setup fail (for every measurement function, which is therefore never
invoked). -/
def configErrorClaim : Prop :=
  (∀ (run : LosSpec → Option (List ℤ) → List ℚ × List ℚ → Unit)
    (cfg : MeshPowerConfig), ¬ (cfg.los ∈ allowedLos) →
      ∃ e, meshPowerInit run cfg = Except.error e) ∧
  (∀ (run : LosSpec → Option (List ℤ) → List ℚ × List ℚ → Unit)
    (cfg : MeshPowerConfig) (l : List ℤ),
      cfg.ells = some l → (∃ ell ∈ l, ell < 0) →
      ∃ e, meshPowerInit run cfg = Except.error e) ∧
  (∀ (run : LosSpec → Option (List ℤ) → List ℚ × List ℚ → Unit)
    (cfg : MeshPowerConfig), cfg.kedges.length < 2 →
      ∃ e, meshPowerInit run cfg = Except.error e)

/-- Claim C9 counterexample input: the keyword `"Z"` is outside the
allowed set as a string, yet the code lower-cases before checking and
accepts it. -/
def counterexC9 : MeshPowerConfig :=
  { los := "Z".data
    ells := some [0, 2]
    kedges := [0, 1, 2]
    muedges := none }

/-- A configuration with an unknown line-of-sight keyword. -/
def badLosCfg : MeshPowerConfig :=
  { los := "foo".data, ells := some [0], kedges := [0, 1], muedges := none }

/-- A configuration with a negative multipole order. -/
def badEllsCfg : MeshPowerConfig :=
  { los := "z".data, ells := some [0, -2], kedges := [0, 1], muedges := none }

/-- A configuration with a single `k`-edge. -/
def badKCfg : MeshPowerConfig :=
  { los := "z".data, ells := some [0], kedges := [0], muedges := none }

/-- A configuration with a single `mu`-edge. -/
def badMuCfg : MeshPowerConfig :=
  { los := "z".data, ells := some [0], kedges := [0, 1], muedges := some [1] }

/-- `np.int64(x)`: truncation toward zero (equal to the floor for the
nonnegative arguments produced by `find_unique_edges`). -/
def truncQ (x : ℚ) : ℤ := if 0 ≤ x then ⌊x⌋ else -⌊-x⌋

/-- The rounding key of `unique_index`:
`np.int64(x2 / (0.5 * x0)**2 + 0.5)` — the nearest multiple of
`(0.5 * x0)^2`, as an integer index. -/
def roundKey (x0 : ℚ) (v : ℚ) : ℤ := truncQ (v / (x0 / 2) ^ 2 + 1 / 2)

/-- `x2[np.unique(np.int64(x2 / (0.5 x0)^2 + 0.5), return_index=True)[1]]`:
for each distinct rounding key, in ascending key order, the first
element of `l` carrying that key (`np.unique` sorts the keys and
returns first-occurrence indices). -/
def uniqueSorted (x0 : ℚ) (l : List ℚ) : List ℚ :=
  (((l.map (roundKey x0)).dedup).insertionSort (· ≤ ·)).map
    (fun k => (l.find? (fun v => roundKey x0 v = k)).getD 0)

/-- `unique_local` of `find_unique_edges` (fft_power.py lines 407-410):
squared norms of the local points, deduplicated by rounding key, then
restricted to `[xmin^2, xmax^2]` (inclusive). -/
def uniqueLocal (x0 xmin xmax : ℚ) (pts : List (ℚ × ℚ × ℚ)) : List ℚ :=
  (uniqueSorted x0 (pts.map (fun p => p.1 ^ 2 + p.2.1 ^ 2 + p.2.2 ^ 2))).filter
    (fun v => decide (xmin ^ 2 ≤ v) && decide (v ≤ xmax ^ 2))

/-- The globally deduplicated squared norms: the per-rank local lists
are gathered (`allgather` plus concatenate) and deduplicated again. -/
def globalUnique (x0 xmin xmax : ℚ) (ranks : List (List (ℚ × ℚ × ℚ))) :
    List ℚ :=
  uniqueSorted x0 ((ranks.map (uniqueLocal x0 xmin xmax)).join)

/-- The globally deduplicated norms themselves: `x**0.5` of the
deduplicated squared norms (the parameter `sq` stands for `** 0.5`). -/
def uniqueNorms (x0 xmin xmax : ℚ)
    (ranks : List (List (ℚ × ℚ × ℚ))) (sq : ℚ → ℚ) : List ℚ :=
  (globalUnique x0 xmin xmax ranks).map sq

/-- `fx[1:] - width / 2`: the midpoints of consecutive values. -/
def midEdges : List ℚ → List ℚ
  | a :: b :: rest => (a + b) / 2 :: midEdges (b :: rest)
  | _ => []

/-- `min(fx[-1] + width[-1] / 2., xmax)`: the last edge. -/
def lastEdgeOf (fx : List ℚ) (xmax : ℚ) : ℚ :=
  min (fx.getD (fx.length - 1) 0 +
    (fx.getD (fx.length - 1) 0 - fx.getD (fx.length - 2) 0) / 2) xmax

/-- `find_unique_edges` (fft_power.py lines 377-421): dedupe squared
norms locally, gather and dedupe globally, take square roots (the
parameter `sq` stands for `** 0.5`), and place edges at `xmin`, the
midpoints of consecutive unique norms, and `min(last + half gap, xmax)`.
With fewer than two unique norms `width[-1]` raises an `IndexError`. -/
def findUniqueEdges (x0 xmin xmax : ℚ)
    (ranks : List (List (ℚ × ℚ × ℚ))) (sq : ℚ → ℚ) :
    Except String (List ℚ) :=
  let fx := uniqueNorms x0 xmin xmax ranks sq
  if fx.length < 2 then Except.error "IndexError"
  else Except.ok (xmin :: (midEdges fx ++ [lastEdgeOf fx xmax]))

/-- Concrete per-rank points for exercising `find_unique_edges`:
one rank holding wavevectors of squared norms 9 and 16. -/
def uniqueEdgesData : List (List (ℚ × ℚ × ℚ)) := [[(0, 0, 3), (4, 0, 0)]]

/-- An exact square root on the squared norms 9 and 16. -/
def sqrtOn (v : ℚ) : ℚ := if v = 9 then 3 else if v = 16 then 4 else 0

theorem digitize_nil (x : ℚ) : digitize x [] = 0 := rfl

theorem digitize_cons (x e : ℚ) (l : List ℚ) :
    digitize x (e :: l) = (if e ≤ x then 1 else 0) + digitize x l := by
  simp only [digitize, List.filter_cons]
  by_cases h : e ≤ x <;> simp [h, Nat.add_comm]

/-- On a sorted edge list, all edges beyond the first `> x` one are also
`> x`, so `digitize` counts an initial segment. -/
theorem digitize_eq_iff (x : ℚ) (edges : List ℚ)
    (hs : edges.Sorted (· < ·)) (j : ℕ) :
    digitize x edges = j ↔
      (∀ i : ℕ, (h : i < edges.length) → (edges.get ⟨i, h⟩ ≤ x ↔ i < j)) ∧
        j ≤ edges.length := by
  induction edges generalizing j with
  | nil =>
      simp only [digitize_nil, List.length_nil]
      constructor
      · rintro rfl
        exact ⟨fun i h => absurd h (Nat.not_lt_zero i), le_refl 0⟩
      · rintro ⟨-, hj⟩
        exact (Nat.le_zero.mp hj).symm
  | cons e l ih =>
      have hsl : l.Sorted (· < ·) := (List.sorted_cons.mp hs).2
      have hel : ∀ y ∈ l, e < y := (List.sorted_cons.mp hs).1
      rw [digitize_cons]
      by_cases he : e ≤ x
      · simp only [he, if_pos]
        constructor
        · intro hj
          rcases j with _ | j
          · omega
          have hj' : digitize x l = j := by omega
          obtain ⟨h1, h2⟩ := (ih hsl j).mp hj'
          refine ⟨?_, by simpa [List.length_cons] using Nat.succ_le_succ h2⟩
          intro i hi
          rcases i with _ | i
          · simpa using he
          · simp only [List.get_cons_succ]
            rw [h1 i (by simpa [List.length_cons] using hi)]
            omega
        · rintro ⟨h1, h2⟩
          rcases j with _ | j
          · have := (h1 0 (by simp [List.length_cons])).mp (by simpa using he)
            omega
          have : digitize x l = j := by
            rw [ih hsl j]
            refine ⟨?_, by simpa [List.length_cons] using h2⟩
            intro i hi
            have := h1 (i + 1) (by simpa [List.length_cons] using Nat.succ_lt_succ hi)
            simpa using this
          omega
      · simp only [he, if_neg, Nat.zero_add]
        have hlx : ∀ y ∈ l, ¬ y ≤ x := by
          intro y hy hyx
          exact he (le_trans (le_of_lt (hel y hy)) hyx)
        have hd0 : digitize x l = 0 := by
          simp only [digitize, List.length_eq_zero]
          exact List.filter_eq_nil_iff.mpr (fun y hy => by simpa using hlx y hy)
        constructor
        · intro hj
          rw [hd0] at hj
          subst hj
          refine ⟨?_, Nat.zero_le _⟩
          intro i hi
          refine iff_of_false ?_ (Nat.not_lt_zero i)
          rcases i with _ | i
          · exact he
          · exact hlx _ (List.get_mem l _ _)
        · rintro ⟨h1, -⟩
          rw [hd0]
          by_contra hj
          have hj' : 0 < j := Nat.pos_of_ne_zero (fun h => hj h.symm)
          have := (h1 0 (by simp [List.length_cons])).mpr hj'
          exact he (by simpa using this)

/-- C1: on a Hermitian-compressed field, every stored mode is
accumulated once via the first pass, and a second time — with its angle
cosine negated and its value conjugated and weighted by the antisymmetry
sign — exactly when its frequency along the compression (last) axis is
strictly positive; modes failing that predicate are accumulated exactly
once. -/
theorem projectToBasis_mirror_pass (P : ProjParams)
    (hcomp : P.field.compressed = true) :
    allContribs P = P.field.modes.flatMap (fun m =>
      firstPassContrib P m ::
        (if 0 < m.kz then [mirrorPassContrib P m] else [])) := by
  have hs : P.hermSym = (if P.antisymmetric then (-1 : ℤ) else 1) := by
    simp [ProjParams.hermSym, hcomp]
  have hs0 : ¬ P.hermSym = 0 := by
    rw [hs]; split <;> decide
  have hfun : ∀ m : Mode, contribsOf P m =
      firstPassContrib P m ::
        (if 0 < m.kz then [mirrorPassContrib P m] else []) := by
    intro m
    simp only [contribsOf, firstPassContrib, mirrorPassContrib, hs0, if_false, hs]
    rw [if_neg (show ¬ ((if P.antisymmetric = true then (-1 : ℤ) else 1) = 0) by
      split <;> decide)]
  unfold allContribs
  exact List.flatMap_congr (fun m _ => hfun m)

/-- On strictly sorted edges, `digitize x edges = i + 1` exactly when
`edges[i] <= x < edges[i+1]`. -/
theorem digitize_eq_succ_iff (x : ℚ) (edges : List ℚ)
    (hs : edges.Sorted (· < ·)) (i : ℕ) (h1 : i + 1 < edges.length) :
    digitize x edges = i + 1 ↔
      (edges.get ⟨i, lt_trans (Nat.lt_succ_self i) h1⟩ ≤ x ∧
        x < edges.get ⟨i + 1, h1⟩) := by
  have hmono : Monotone edges.get := (List.Sorted.get_strictMono hs).monotone
  rw [digitize_eq_iff x edges hs (i + 1)]
  constructor
  · rintro ⟨hch, -⟩
    refine ⟨(hch i _).mpr (Nat.lt_succ_self i), not_le.mp (fun hc => ?_)⟩
    have := (hch (i + 1) h1).mp hc
    omega
  · rintro ⟨hgi, hlt⟩
    refine ⟨?_, h1.le⟩
    intro idx hidx
    constructor
    · intro hle
      by_contra hge
      have h2 : i + 1 ≤ idx := by omega
      have : edges.get ⟨i + 1, h1⟩ ≤ edges.get ⟨idx, hidx⟩ :=
        hmono (by exact h2)
      exact absurd (le_trans this hle) (not_le.mpr hlt)
    · intro hlt'
      have h2 : idx ≤ i := by omega
      exact le_trans (hmono (by exact h2)) hgi

/-- C4: a mode with angle cosine `mu` is assigned to `mu`-bin `i`
(histogram column `i + 1`) iff `muedges[i] <= mu < muedges[i+1]`, except
that the last `mu`-bin alone is closed on both ends: `mu` equal to the
last edge is assigned to the last bin. -/
theorem muBin_halfopen_rule (P : ProjParams) (mu : ℚ) (i : ℕ)
    (hs : P.muedges.Sorted (· < ·)) (hlen : 2 ≤ P.muedges.length)
    (hi : i < P.nmu) :
    muBinIndex P false mu = i + 1 ↔
      (P.muedges.getD i 0 ≤ mu ∧
        (if i = P.nmu - 1 then mu ≤ P.muedges.getD (i + 1) 0
         else mu < P.muedges.getD (i + 1) 0)) := by
  have hnmu : P.nmu = P.muedges.length - 1 := rfl
  have hi1 : i + 1 < P.muedges.length := by omega
  have hi0 : i < P.muedges.length := by omega
  have hmono : StrictMono P.muedges.get := List.Sorted.get_strictMono hs
  have hne : P.muedges ≠ [] := by
    intro h; rw [h] at hlen; simp at hlen
  have hlast : P.lastMuEdge =
      P.muedges.get ⟨P.muedges.length - 1, by omega⟩ := by
    rw [ProjParams.lastMuEdge, List.getLast?_eq_getLast P.muedges hne,
      List.getLast_eq_getElem]
    rfl
  have hgd0 : P.muedges.getD i 0 = P.muedges.get ⟨i, hi0⟩ :=
    List.getD_eq_get P.muedges 0 hi0
  have hgd1 : P.muedges.getD (i + 1) 0 = P.muedges.get ⟨i + 1, hi1⟩ :=
    List.getD_eq_get P.muedges 0 hi1
  by_cases hmu : mu = P.lastMuEdge
  · have hbin : muBinIndex P false mu = P.nmu := by
      simp [muBinIndex, hmu]
    rw [hbin, hgd0, hgd1]
    by_cases hieq : i = P.nmu - 1
    · simp only [hieq, if_pos]
      constructor
      · intro _
        have h1 : P.muedges.length - 1 = (P.nmu - 1) + 1 := by omega
        constructor
        · rw [hmu, hlast]
          exact le_of_lt (hmono (by simp; omega))
        · rw [hmu, hlast]
          exact le_of_eq (congrArg _ (by simp; omega))
      · intro _
        omega
    · simp only [hieq, if_neg, not_false_iff]
      have hfalse : ¬ (P.nmu = i + 1) := by omega
      simp only [hfalse, false_iff, not_and]
      intro _
      have hx : P.muedges.get ⟨i + 1, hi1⟩ <
          P.muedges.get ⟨P.muedges.length - 1, by omega⟩ :=
        hmono (by simp; omega)
      rw [hmu, hlast]
      exact not_lt.mpr (le_of_lt hx)
  · have hbin : muBinIndex P false mu = digitize mu P.muedges := by
      simp [muBinIndex, hmu]
    rw [hbin, digitize_eq_succ_iff mu P.muedges hs i hi1, hgd0, hgd1]
    by_cases hieq : i = P.nmu - 1
    · simp only [hieq, if_pos]
      have hgl : P.muedges.get ⟨(P.nmu - 1) + 1, by omega⟩ = P.lastMuEdge := by
        rw [hlast]
        exact congrArg _ (by simp; omega)
      constructor
      · rintro ⟨h1, h2⟩
        exact ⟨by simpa [hieq] using h1, le_of_lt (by simpa [hieq] using h2)⟩
      · rintro ⟨h1, h2⟩
        refine ⟨by simpa [hieq] using h1, ?_⟩
        have : mu ≠ P.muedges.get ⟨(P.nmu - 1) + 1, by omega⟩ := by
          rw [hgl]; exact hmu
        have h2' : mu ≤ P.muedges.get ⟨(P.nmu - 1) + 1, by omega⟩ := h2
        simpa [hieq] using lt_of_le_of_ne h2' this
    · simp only [hieq, if_neg, not_false_iff]

/-- C2 (amended): for a Fourier-space input field, every output bin
whose lower edge is at or beyond `min_axis pi * N / boxsize` has its
mean-x, mean-mu and mean-field entries NaN and its mode count 0.  (The
code masks with `min_axis (N // 2) * (2 pi / boxsize)`, which is at most
the claimed threshold, and equal to it for even mesh sizes.) -/
theorem nyquist_mask_fourier (P : ProjParams)
    (hreal : P.field.isReal = false) (htau : 0 < P.tau)
    (hb1 : 0 < P.field.box1) (hb2 : 0 < P.field.box2)
    (hb3 : 0 < P.field.box3)
    (hn1 : 1 ≤ P.field.n1) (hn2 : 1 ≤ P.field.n2) (hn3 : 1 ≤ P.field.n3)
    (hsorted : P.xedges.Sorted (· < ·)) (i j : ℕ) (hi : i < P.nx)
    (hedge : nyquistPiNL P ≤ P.xedges.getD i 0) :
    xmean2d P i j = RVal.nan ∧ mumean2d P i j = RVal.nan ∧
      y2d P i j = ⟨RVal.nan, RVal.nan⟩ ∧ n2d P i j = 0 := by
  have hnx : P.nx = P.xedges.length - 1 := rfl
  have hlen : 2 ≤ P.xedges.length := by omega
  have hi0 : i < P.xedges.length := by omega
  have hi1 : i + 1 < P.xedges.length := by omega
  -- the claimed per-axis threshold dominates the code's per-axis threshold
  have haxis : ∀ (n : ℕ) (b : ℚ), 0 < b → 1 ≤ n →
      ((n / 2 : ℕ) : ℚ) * (P.tau / b) ≤ P.tau / 2 * n / b := by
    intro n b hb hn
    have hcast : ((n / 2 : ℕ) : ℚ) * 2 ≤ (n : ℚ) := by
      exact_mod_cast Nat.div_mul_le_self n 2
    have hnum : ((n / 2 : ℕ) : ℚ) * P.tau ≤ P.tau / 2 * n := by
      nlinarith [hcast, htau.le]
    calc ((n / 2 : ℕ) : ℚ) * (P.tau / b)
        = ((n / 2 : ℕ) : ℚ) * P.tau / b := by ring
      _ ≤ P.tau / 2 * n / b := by gcongr
  have hcell1 : P.cellsize1 = P.tau / P.field.box1 := by
    simp [ProjParams.cellsize1, hreal]
  have hcell2 : P.cellsize2 = P.tau / P.field.box2 := by
    simp [ProjParams.cellsize2, hreal]
  have hcell3 : P.cellsize3 = P.tau / P.field.box3 := by
    simp [ProjParams.cellsize3, hreal]
  have hminle : minXmax P ≤ nyquistPiNL P := by
    have h1 := haxis P.field.n1 P.field.box1 hb1 hn1
    have h2 := haxis P.field.n2 P.field.box2 hb2 hn2
    have h3 := haxis P.field.n3 P.field.box3 hb3 hn3
    rw [minXmax, xmax1, xmax2, xmax3, hcell1, hcell2, hcell3, nyquistPiNL]
    exact min_le_min (min_le_min h1 h2) h3
  have hnyqpos : 0 < nyquistPiNL P := by
    rw [nyquistPiNL]
    have hp : ∀ (n : ℕ) (b : ℚ), 0 < b → 1 ≤ n →
        (0 : ℚ) < P.tau / 2 * n / b := by
      intro n b hb hn
      have hn' : (1 : ℚ) ≤ (n : ℚ) := by exact_mod_cast hn
      positivity
    exact lt_min (lt_min (hp _ _ hb1 hn1) (hp _ _ hb2 hn2)) (hp _ _ hb3 hn3)
  have hget : P.xedges.getD i 0 = P.xedges.get ⟨i, hi0⟩ :=
    List.getD_eq_get P.xedges 0 hi0
  have hget1 : P.xedges.getD (i + 1) 0 = P.xedges.get ⟨i + 1, hi1⟩ :=
    List.getD_eq_get P.xedges 0 hi1
  have hstep : P.xedges.get ⟨i, hi0⟩ < P.xedges.get ⟨i + 1, hi1⟩ :=
    List.Sorted.get_strictMono hsorted (by simp)
  have hmask : maskRow P (i + 1) = true := by
    have hub : minXmax P ≤ P.xedges.getD (i + 1) 0 := by
      rw [hget1]
      calc minXmax P ≤ nyquistPiNL P := hminle
        _ ≤ P.xedges.get ⟨i, hi0⟩ := by rw [← hget]; exact hedge
        _ ≤ P.xedges.get ⟨i + 1, hi1⟩ := hstep.le
    simp only [maskRow, Bool.and_eq_true, decide_eq_true_eq]
    exact ⟨hi1, hub⟩
  have hnotzero : ((i + 1, j + 1) : ℕ × ℕ) ≠ digZero P := by
    intro hdz
    have hdig : digitize 0 P.xedges = i + 1 := by
      have := congrArg Prod.fst hdz
      simpa [digZero] using this.symm
    obtain ⟨hch, -⟩ :=
      (digitize_eq_iff 0 P.xedges hsorted (i + 1)).mp hdig
    have hle0 : P.xedges.get ⟨i, hi0⟩ ≤ 0 :=
      (hch i hi0).mpr (Nat.lt_succ_self i)
    have : (0 : ℚ) < P.xedges.get ⟨i, hi0⟩ :=
      lt_of_lt_of_le hnyqpos (by rw [← hget]; exact hedge)
    linarith
  have hnsumF : nsumF P (i + 1, j + 1) = 0 := by
    rw [nsumF, if_neg (by
      rintro ⟨-, h⟩
      exact hnotzero h)]
    rw [nsumM, if_pos hmask]
  refine ⟨?_, ?_, ?_, hnsumF⟩
  · rw [xmean2d, hnsumF, xsumF, if_neg (by rintro ⟨-, h⟩; exact hnotzero h),
      xsumM, if_pos hmask]
    rfl
  · rw [mumean2d, hnsumF, musumF, if_neg (by rintro ⟨-, h⟩; exact hnotzero h),
      musumM, if_pos hmask]
    rfl
  · rw [y2d, hnsumF, ysumF, if_neg (by rintro ⟨-, h⟩; exact hnotzero h),
      ysumM, if_pos hmask]
    show CVal.divR ⟨RVal.nan, RVal.val 0⟩ (RVal.val ((0 : ℕ) : ℚ)) = _
    simp [CVal.divR, RVal.div]

/-- C2 counterexample: the claim as stated — quantified over every input
field, including real-space ones — is false.  On `counterexC2` (a real
field) the single bin has lower edge `2`, beyond the claimed threshold
`pi * N / boxsize = tau / 8 < 2`, yet its mode count is 1, not 0,
because the code's real-space threshold is `(N // 2) * (boxsize / N) = 4`. -/
theorem nyquist_mask_claim_false : ¬ nyquistMaskClaim := by
  intro h
  have hc := h counterexC2 (by norm_num [counterexC2])
    (by norm_num [counterexC2]) (by norm_num [counterexC2])
    (by norm_num [counterexC2]) (by norm_num [counterexC2])
    (by norm_num [counterexC2]) (by norm_num [counterexC2])
    (by rw [counterexC2]; decide) 0 0
    (by norm_num [ProjParams.nx, counterexC2])
    (by norm_num [ProjParams.nmu, counterexC2])
    (by norm_num [nyquistPiNL, counterexC2])
  have hval : n2d counterexC2 0 0 = 1 := by
    norm_num [n2d, nsumF, nsumM, nsum, allContribs, contribsOf, digZero,
      zeroBin, digitize, maskRow, minXmax, xmax1, xmax2, xmax3, ProjParams.cellsize1,
      ProjParams.cellsize2, ProjParams.cellsize3, ProjParams.mincell,
      ProjParams.hermSym, ProjParams.muRaw, muBinIndex, ProjParams.lastMuEdge,
      ProjParams.nx, ProjParams.nmu, Mode.normSq, counterexC2, List.filter]
  rw [hc.2.2.2] at hval
  exact absurd hval (by norm_num)

/-- C1 witness: the mirror-pass decomposition at a concrete compressed
field. -/
theorem projectToBasis_mirror_pass_witness :
    witnessC1.field.compressed = true ∧
      allContribs witnessC1 = witnessC1.field.modes.flatMap (fun m =>
        firstPassContrib witnessC1 m ::
          (if 0 < m.kz then [mirrorPassContrib witnessC1 m] else [])) :=
  ⟨rfl, projectToBasis_mirror_pass witnessC1 rfl⟩

/-- C2 witness: the amended Nyquist-mask statement at a concrete
Fourier-space field. -/
theorem nyquist_mask_fourier_witness :
    witnessC2.field.isReal = false ∧ 0 < witnessC2.tau ∧
      0 < witnessC2.field.box1 ∧ 0 < witnessC2.field.box2 ∧
      0 < witnessC2.field.box3 ∧ 1 ≤ witnessC2.field.n1 ∧
      1 ≤ witnessC2.field.n2 ∧ 1 ≤ witnessC2.field.n3 ∧
      List.Sorted (· < ·) witnessC2.xedges ∧ 0 < witnessC2.nx ∧
      nyquistPiNL witnessC2 ≤ witnessC2.xedges.getD 0 0 ∧
      (xmean2d witnessC2 0 0 = RVal.nan ∧ mumean2d witnessC2 0 0 = RVal.nan ∧
        y2d witnessC2 0 0 = ⟨RVal.nan, RVal.nan⟩ ∧ n2d witnessC2 0 0 = 0) :=
  ⟨rfl, by decide, by decide, by decide, by decide, by decide, by decide,
    by decide, by decide, by norm_num [ProjParams.nx, witnessC2],
    by norm_num [nyquistPiNL, witnessC2],
    nyquist_mask_fourier witnessC2 rfl (by decide) (by decide) (by decide)
      (by decide) (by decide) (by decide) (by decide) (by decide) 0 0
      (by norm_num [ProjParams.nx, witnessC2])
      (by norm_num [nyquistPiNL, witnessC2])⟩

/-- C4 witness: the binning rule at the concrete edges `[-1, 0, 1]`,
last bin (index 1), with `mu = 1` sitting exactly on the last edge. -/
theorem muBin_halfopen_rule_witness :
    List.Sorted (· < ·) witnessC4.muedges ∧ 2 ≤ witnessC4.muedges.length ∧
      1 < witnessC4.nmu ∧
      (muBinIndex witnessC4 false 1 = 1 + 1 ↔
        (witnessC4.muedges.getD 1 0 ≤ 1 ∧
          (if 1 = witnessC4.nmu - 1 then (1 : ℚ) ≤ witnessC4.muedges.getD 2 0
           else (1 : ℚ) < witnessC4.muedges.getD 2 0))) :=
  ⟨by decide, by decide, by decide,
    muBin_halfopen_rule witnessC4 1 1 (by decide) (by decide) (by decide)⟩

/-- C3: modes whose norm is strictly below half the smallest fundamental
cell size are routed to the dedicated zero bin `(nx+2, nmu+2)`; unless
`exclude_zero`, the zero bin's count and sums are afterwards added into
the bin `digitize` assigns to the literal value 0 (and nowhere else),
while the zero bin's monopole field sum is still returned separately as
`zero2d` / `poles_zero`, equal to the raw (unfolded) zero-bin sum. -/
theorem zero_bin_routing_and_fold (P : ProjParams)
    (hex : P.excludeZero = false) :
    (∀ m ∈ P.field.modes, P.sq m.normSq < P.mincell / 2 →
      ∀ c ∈ contribsOf P m, c.binx = P.nx + 2 ∧ c.binmu = P.nmu + 2) ∧
    (nsumF P (digZero P) = nsumM P (digZero P) + nsumM P (zeroBin P) ∧
      xsumF P (digZero P) = (xsumM P (digZero P)).add (xsumM P (zeroBin P)) ∧
      musumF P (digZero P) =
        (musumM P (digZero P)).add (musumM P (zeroBin P)) ∧
      ∀ ell, ysumF P ell (digZero P) =
        (ysumM P ell (digZero P)).add (ysumM P ell (zeroBin P))) ∧
    (∀ b : ℕ × ℕ, b ≠ digZero P → nsumF P b = nsumM P b ∧
      xsumF P b = xsumM P b ∧ musumF P b = musumM P b ∧
      ∀ ell, ysumF P ell b = ysumM P ell b) ∧
    (∀ ell, polesZero P ell = CVal.ofCQ (ysum P ell (zeroBin P))) ∧
    zero2d P = CVal.ofCQ (ysum P 0 (zeroBin P)) := by
  have hexn : ¬ (P.excludeZero : Prop) := by simp [hex]
  have hdig : (digZero P).1 ≤ P.nx + 1 := by
    have h1 : digitize 0 P.xedges ≤ P.xedges.length :=
      List.length_filter_le _ _
    have h2 : P.xedges.length ≤ P.nx + 1 := by
      rw [ProjParams.nx]; omega
    exact le_trans h1 h2
  have hzb : zeroBin P ≠ digZero P := by
    intro h
    have := congrArg Prod.fst h
    rw [zeroBin] at this
    simp only at this
    omega
  have hnomask : maskRow P (P.nx + 2) = false := by
    have : ¬ (P.nx + 2 < P.xedges.length) := by
      rw [ProjParams.nx]; omega
    simp [maskRow, this]
  refine ⟨?_, ?_, ?_, ?_, ?_⟩
  · intro m _ hm c hc
    have hz : decide (P.sq m.normSq < P.mincell / 2) = true := decide_eq_true hm
    rw [contribsOf] at hc
    simp only [hz] at hc
    by_cases hh : P.hermSym = 0
    · simp only [hh, if_pos, List.mem_singleton] at hc
      subst hc
      exact ⟨rfl, by simp [muBinIndex]⟩
    · simp only [hh, if_neg, not_false_iff, List.mem_cons] at hc
      rcases hc with hc | hc
      · subst hc
        exact ⟨rfl, by simp [muBinIndex]⟩
      · by_cases hkz : 0 < m.kz
        · simp only [hkz, if_pos, List.mem_singleton] at hc
          subst hc
          exact ⟨rfl, by simp [muBinIndex]⟩
        · simp only [hkz, if_neg, not_false_iff, List.not_mem_nil] at hc
  · refine ⟨?_, ?_, ?_, fun ell => ?_⟩
    · rw [nsumF, if_pos ⟨hexn, rfl⟩]
    · rw [xsumF, if_pos ⟨hexn, rfl⟩]
    · rw [musumF, if_pos ⟨hexn, rfl⟩]
    · rw [ysumF, if_pos ⟨hexn, rfl⟩]
  · intro b hb
    refine ⟨?_, ?_, ?_, fun ell => ?_⟩
    · rw [nsumF, if_neg (by rintro ⟨-, h⟩; exact hb h)]
    · rw [xsumF, if_neg (by rintro ⟨-, h⟩; exact hb h)]
    · rw [musumF, if_neg (by rintro ⟨-, h⟩; exact hb h)]
    · rw [ysumF, if_neg (by rintro ⟨-, h⟩; exact hb h)]
  · intro ell
    rw [polesZero, ysumF, if_neg (by rintro ⟨-, h⟩; exact hzb h), ysumM,
      if_neg (by show ¬ maskRow P (P.nx + 2) = true
                 rw [hnomask]; exact Bool.false_ne_true)]
  · rw [zero2d, ysumF, if_neg (by rintro ⟨-, h⟩; exact hzb h), ysumM,
      if_neg (by show ¬ maskRow P (P.nx + 2) = true
                 rw [hnomask]; exact Bool.false_ne_true)]

/-- C3 witness: the routing-and-fold statement at a concrete field
containing the zero mode. -/
theorem zero_bin_routing_and_fold_witness :
    witnessC3.excludeZero = false ∧
      (nsumF witnessC3 (digZero witnessC3) =
        nsumM witnessC3 (digZero witnessC3) +
          nsumM witnessC3 (zeroBin witnessC3) ∧
       zero2d witnessC3 = CVal.ofCQ (ysum witnessC3 0 (zeroBin witnessC3))) :=
  ⟨rfl, (zero_bin_routing_and_fold witnessC3 rfl).2.1.1,
    (zero_bin_routing_and_fold witnessC3 rfl).2.2.2.2⟩

/-- The base `get_power` with every option enabled equals the composed
fixed-order formula. -/
theorem getPowerBaseC_eq_spec (s : Stats1D)
    (hd : s.power_direct_nonorm.length = s.power_nonorm.length) :
    getPowerBaseC s true true true true = specPowerBase s := by
  apply List.ext_getElem?
  intro n
  simp only [getPowerBaseC, specPowerBase, if_true, List.getElem?_map]
  by_cases hn : n < s.power_nonorm.length
  · have hn' : n < s.power_direct_nonorm.length := by omega
    have hp : s.power_nonorm[n]? = some (s.power_nonorm.getD n czero) := by
      rw [List.getElem?_eq_getElem hn, List.getD_eq_getElem s.power_nonorm czero hn]
    have hpd : s.power_direct_nonorm[n]? =
        some (s.power_direct_nonorm.getD n czero) := by
      rw [List.getElem?_eq_getElem hn',
        List.getD_eq_getElem s.power_direct_nonorm czero hn']
    rw [List.getElem?_range hn]
    by_cases hC : 1 ≤ digitize 0 s.edges ∧
        digitize 0 s.edges - 1 < s.edges.length - 1
    · rw [if_pos (by exact ⟨trivial, hC⟩)]
      rw [List.getElem?_modify, List.getElem?_map, List.getElem?_zipWith, hp, hpd]
      by_cases hi : digitize 0 s.edges - 1 = n
      · simp only [Option.map_some, Option.map]
        rw [if_pos hi, if_pos ⟨hC.1, hC.2, hi⟩]
      · simp only [Option.map_some, Option.map]
        rw [if_neg hi, if_neg (by rintro ⟨-, -, h⟩; exact hi h)]
    · rw [if_neg (by rintro ⟨-, h⟩; exact hC h)]
      rw [List.getElem?_map, List.getElem?_zipWith, hp, hpd]
      simp only [Option.map_some, Option.map]
      rw [if_neg (by rintro ⟨h1, h2, -⟩; exact hC ⟨h1, h2⟩)]
  · have h1 : s.power_nonorm[n]? = none := by
      rw [List.getElem?_eq_none]; omega
    have h2 : (List.range s.power_nonorm.length)[n]? = none := by
      rw [List.getElem?_eq_none]; simp; omega
    rw [h2]
    by_cases hC : 1 ≤ digitize 0 s.edges ∧
        digitize 0 s.edges - 1 < s.edges.length - 1
    · rw [if_pos (by exact ⟨trivial, hC⟩)]
      rw [List.getElem?_modify, List.getElem?_map, List.getElem?_zipWith, h1]
      rfl
    · rw [if_neg (by rintro ⟨-, h⟩; exact hC h)]
      rw [List.getElem?_map, List.getElem?_zipWith, h1]
      rfl

/-- Two IEEE-style subtractions commute (in every finite / infinite /
nan combination), so subtracting the shot noise before or after the
zero-mode correction yields the same array. -/
theorem rval_sub_sub_comm (a b c : RVal) :
    (a.sub b).sub c = (a.sub c).sub b := by
  rcases a with _ | qa | _ | _ <;> rcases b with _ | qb | _ | _ <;>
    rcases c with _ | qc | _ | _ <;>
      simp only [RVal.sub, RVal.neg, RVal.add] <;> ring_nf

theorem cval_sub_sub_comm (a b c : CVal) :
    (a.sub b).sub c = (a.sub c).sub b := by
  cases a; cases b; cases c
  simp only [CVal.sub, rval_sub_sub_comm]

/-- The multipole `get_power` with every option enabled equals the
composed fixed-order formula (shot noise before zero-mode nulling; the
code applies them in the opposite order, which commutes). -/
theorem getPowerPolesC_eq_spec (sp : StatsPoles)
    (hz : sp.power_zero_nonorm.length = sp.power_nonorm.length)
    (hd : sp.power_direct_nonorm.length = sp.power_nonorm.length)
    (hrect : ∀ i, (sp.power_direct_nonorm.getD i []).length =
      (sp.power_nonorm.getD i []).length) :
    getPowerPolesC sp true true true true = specPowerPoles sp := by
  apply List.ext_getElem?
  intro ill
  simp only [getPowerPolesC, basePass2D, specPowerPoles, if_true, true_and,
    List.getElem?_map]
  by_cases hrow : ill < sp.power_nonorm.length
  · have hrd : ill < sp.power_direct_nonorm.length := by omega
    have hrz : ill < sp.power_zero_nonorm.length := by omega
    have hp : sp.power_nonorm[ill]? = some (sp.power_nonorm.getD ill []) := by
      rw [List.getElem?_eq_getElem hrow, List.getD_eq_getElem sp.power_nonorm [] hrow]
    have hpd : sp.power_direct_nonorm[ill]? =
        some (sp.power_direct_nonorm.getD ill []) := by
      rw [List.getElem?_eq_getElem hrd,
        List.getD_eq_getElem sp.power_direct_nonorm [] hrd]
    have hpz : sp.power_zero_nonorm[ill]? =
        some (sp.power_zero_nonorm.getD ill czero) := by
      rw [List.getElem?_eq_getElem hrz,
        List.getD_eq_getElem sp.power_zero_nonorm czero hrz]
    rw [List.getElem?_range hrow]
    set prow := sp.power_nonorm.getD ill [] with hprow
    set drow := sp.power_direct_nonorm.getD ill [] with hdrow
    set zval := sp.power_zero_nonorm.getD ill czero with hzval
    have hrect' : drow.length = prow.length := hrect ill
    -- the inner row after the base pass, shot-noise pass and wnorm pass
    by_cases hC : 1 ≤ digitize 0 sp.edges ∧
        digitize 0 sp.edges - 1 < sp.edges.length - 1
    · rw [if_pos hC]
      by_cases hmem : 0 ∈ sp.ells
      · rw [if_pos hmem]
        rw [List.getElem?_modify, List.getElem?_zipWith, List.getElem?_zipWith,
          hp, hpd, hpz]
        simp only [Option.map_some, Option.map]
        congr 1
        by_cases hmono : sp.ells.indexOf 0 = ill
        · rw [if_pos hmono]
          apply List.ext_getElem?
          intro i
          simp only [List.getElem?_map, List.getElem?_modify,
            List.getElem?_zipWith]
          by_cases hcol : i < prow.length
          · have hcold : i < drow.length := by omega
            have hcp : prow[i]? = some (prow.getD i czero) := by
              rw [List.getElem?_eq_getElem hcol, List.getD_eq_getElem prow czero hcol]
            have hcd : drow[i]? = some (drow.getD i czero) := by
              rw [List.getElem?_eq_getElem hcold, List.getD_eq_getElem drow czero hcold]
            rw [hcp, hcd, List.getElem?_range hcol]
            simp only [Option.map_some, Option.map]
            by_cases hi : digitize 0 sp.edges - 1 = i
            · rw [if_pos hi, if_pos ⟨hC.1, hC.2, hi⟩, if_pos ⟨hmem, hmono⟩,
                cval_sub_sub_comm]
            · rw [if_neg hi, if_neg (by rintro ⟨-, -, h⟩; exact hi h),
                if_pos ⟨hmem, hmono⟩]
          · have h1 : prow[i]? = none := by rw [List.getElem?_eq_none]; omega
            have h2 : (List.range prow.length)[i]? = none := by
              rw [List.getElem?_eq_none]; simp; omega
            rw [h1, h2]
            rfl
        · rw [if_neg hmono]
          apply List.ext_getElem?
          intro i
          simp only [List.getElem?_map, List.getElem?_modify,
            List.getElem?_zipWith]
          by_cases hcol : i < prow.length
          · have hcold : i < drow.length := by omega
            have hcp : prow[i]? = some (prow.getD i czero) := by
              rw [List.getElem?_eq_getElem hcol, List.getD_eq_getElem prow czero hcol]
            have hcd : drow[i]? = some (drow.getD i czero) := by
              rw [List.getElem?_eq_getElem hcold, List.getD_eq_getElem drow czero hcold]
            rw [hcp, hcd, List.getElem?_range hcol]
            simp only [Option.map_some, Option.map]
            by_cases hi : digitize 0 sp.edges - 1 = i
            · rw [if_pos hi, if_pos ⟨hC.1, hC.2, hi⟩,
                if_neg (by rintro ⟨-, h⟩; exact hmono h)]
            · rw [if_neg hi, if_neg (by rintro ⟨-, -, h⟩; exact hi h),
                if_neg (by rintro ⟨-, h⟩; exact hmono h)]
          · have h1 : prow[i]? = none := by rw [List.getElem?_eq_none]; omega
            have h2 : (List.range prow.length)[i]? = none := by
              rw [List.getElem?_eq_none]; simp; omega
            rw [h1, h2]
            rfl
      · rw [if_neg hmem]
        rw [List.getElem?_zipWith, List.getElem?_zipWith, hp, hpd, hpz]
        simp only [Option.map_some, Option.map]
        congr 1
        apply List.ext_getElem?
        intro i
        simp only [List.getElem?_map, List.getElem?_modify, List.getElem?_zipWith]
        by_cases hcol : i < prow.length
        · have hcold : i < drow.length := by omega
          have hcp : prow[i]? = some (prow.getD i czero) := by
            rw [List.getElem?_eq_getElem hcol, List.getD_eq_getElem prow czero hcol]
          have hcd : drow[i]? = some (drow.getD i czero) := by
            rw [List.getElem?_eq_getElem hcold, List.getD_eq_getElem drow czero hcold]
          rw [hcp, hcd, List.getElem?_range hcol]
          simp only [Option.map_some, Option.map]
          by_cases hi : digitize 0 sp.edges - 1 = i
          · rw [if_pos hi, if_pos ⟨hC.1, hC.2, hi⟩,
              if_neg (by rintro ⟨h, -⟩; exact hmem h)]
          · rw [if_neg hi, if_neg (by rintro ⟨-, -, h⟩; exact hi h),
              if_neg (by rintro ⟨h, -⟩; exact hmem h)]
        · have h1 : prow[i]? = none := by rw [List.getElem?_eq_none]; omega
          have h2 : (List.range prow.length)[i]? = none := by
            rw [List.getElem?_eq_none]; simp; omega
          rw [h1, h2]
          rfl
    · rw [if_neg hC]
      by_cases hmem : 0 ∈ sp.ells
      · rw [if_pos hmem]
        rw [List.getElem?_modify, List.getElem?_zipWith, hp, hpd]
        simp only [Option.map_some, Option.map]
        congr 1
        by_cases hmono : sp.ells.indexOf 0 = ill
        · rw [if_pos hmono]
          apply List.ext_getElem?
          intro i
          simp only [List.getElem?_map, List.getElem?_zipWith]
          by_cases hcol : i < prow.length
          · have hcold : i < drow.length := by omega
            have hcp : prow[i]? = some (prow.getD i czero) := by
              rw [List.getElem?_eq_getElem hcol, List.getD_eq_getElem prow czero hcol]
            have hcd : drow[i]? = some (drow.getD i czero) := by
              rw [List.getElem?_eq_getElem hcold, List.getD_eq_getElem drow czero hcold]
            rw [hcp, hcd, List.getElem?_range hcol]
            simp only [Option.map_some, Option.map]
            rw [if_neg (by rintro ⟨h1, h2, -⟩; exact hC ⟨h1, h2⟩),
              if_pos ⟨hmem, hmono⟩]
          · have h1 : prow[i]? = none := by rw [List.getElem?_eq_none]; omega
            have h2 : (List.range prow.length)[i]? = none := by
              rw [List.getElem?_eq_none]; simp; omega
            rw [h1, h2]
            rfl
        · rw [if_neg hmono]
          apply List.ext_getElem?
          intro i
          simp only [List.getElem?_map, List.getElem?_zipWith]
          by_cases hcol : i < prow.length
          · have hcold : i < drow.length := by omega
            have hcp : prow[i]? = some (prow.getD i czero) := by
              rw [List.getElem?_eq_getElem hcol, List.getD_eq_getElem prow czero hcol]
            have hcd : drow[i]? = some (drow.getD i czero) := by
              rw [List.getElem?_eq_getElem hcold, List.getD_eq_getElem drow czero hcold]
            rw [hcp, hcd, List.getElem?_range hcol]
            simp only [Option.map_some, Option.map]
            rw [if_neg (by rintro ⟨h1, h2, -⟩; exact hC ⟨h1, h2⟩),
              if_neg (by rintro ⟨-, h⟩; exact hmono h)]
          · have h1 : prow[i]? = none := by rw [List.getElem?_eq_none]; omega
            have h2 : (List.range prow.length)[i]? = none := by
              rw [List.getElem?_eq_none]; simp; omega
            rw [h1, h2]
            rfl
      · rw [if_neg hmem]
        rw [List.getElem?_zipWith, hp, hpd]
        simp only [Option.map_some, Option.map]
        congr 1
        apply List.ext_getElem?
        intro i
        simp only [List.getElem?_map, List.getElem?_zipWith]
        by_cases hcol : i < prow.length
        · have hcold : i < drow.length := by omega
          have hcp : prow[i]? = some (prow.getD i czero) := by
            rw [List.getElem?_eq_getElem hcol, List.getD_eq_getElem prow czero hcol]
          have hcd : drow[i]? = some (drow.getD i czero) := by
            rw [List.getElem?_eq_getElem hcold, List.getD_eq_getElem drow czero hcold]
          rw [hcp, hcd, List.getElem?_range hcol]
          simp only [Option.map_some, Option.map]
          rw [if_neg (by rintro ⟨h1, h2, -⟩; exact hC ⟨h1, h2⟩),
            if_neg (by rintro ⟨h, -⟩; exact hmem h)]
        · have h1 : prow[i]? = none := by rw [List.getElem?_eq_none]; omega
          have h2 : (List.range prow.length)[i]? = none := by
            rw [List.getElem?_eq_none]; simp; omega
          rw [h1, h2]
          rfl
  · have h1 : sp.power_nonorm[ill]? = none := by
      rw [List.getElem?_eq_none]; omega
    have h2 : (List.range sp.power_nonorm.length)[ill]? = none := by
      rw [List.getElem?_eq_none]; simp; omega
    rw [h2]
    by_cases hC : 1 ≤ digitize 0 sp.edges ∧
        digitize 0 sp.edges - 1 < sp.edges.length - 1
    · rw [if_pos hC]
      by_cases hmem : 0 ∈ sp.ells
      · rw [if_pos hmem, List.getElem?_modify, List.getElem?_zipWith,
          List.getElem?_zipWith, h1]
        rfl
      · rw [if_neg hmem, List.getElem?_zipWith, List.getElem?_zipWith, h1]
        rfl
    · rw [if_neg hC]
      by_cases hmem : 0 ∈ sp.ells
      · rw [if_pos hmem, List.getElem?_modify, List.getElem?_zipWith, h1]
        rfl
      · rw [if_neg hmem, List.getElem?_zipWith, h1]
        rfl

/-- C5: `get_power` (a pure function of the instance in this embedding,
as in the code, which works on a copy of `power_nonorm`) composes the
corrections in the fixed order add-direct, subtract-shot-noise,
subtract-zero-bin, divide-by-wnorm, and with `complex=False` drops to
the real part — in the multipole variant the real part for even orders
and the imaginary part for odd orders. -/
theorem getPower_fixed_order (s : Stats1D) (sp : StatsPoles)
    (hd : s.power_direct_nonorm.length = s.power_nonorm.length)
    (hz : sp.power_zero_nonorm.length = sp.power_nonorm.length)
    (hdp : sp.power_direct_nonorm.length = sp.power_nonorm.length)
    (hrect : ∀ i, (sp.power_direct_nonorm.getD i []).length =
      (sp.power_nonorm.getD i []).length) :
    getPowerBaseC s true true true true = specPowerBase s ∧
    getPowerBaseReal s true true true true = (specPowerBase s).map CVal.re ∧
    getPowerPolesC sp true true true true = specPowerPoles sp ∧
    getPowerPolesReal sp true true true true =
      List.zipWith
        (fun ell row => row.map (fun c => if ell % 2 = 0 then c.re else c.im))
        sp.ells (specPowerPoles sp) := by
  refine ⟨getPowerBaseC_eq_spec s hd, ?_,
    getPowerPolesC_eq_spec sp hz hdp hrect, ?_⟩
  · rw [getPowerBaseReal, getPowerBaseC_eq_spec s hd]
  · rw [getPowerPolesReal, getPowerPolesC_eq_spec sp hz hdp hrect]

/-- C5 witness: the fixed-order composition at concrete instances. -/
theorem getPower_fixed_order_witness :
    witnessStats1D.power_direct_nonorm.length =
        witnessStats1D.power_nonorm.length ∧
      witnessStatsPoles.power_zero_nonorm.length =
        witnessStatsPoles.power_nonorm.length ∧
      witnessStatsPoles.power_direct_nonorm.length =
        witnessStatsPoles.power_nonorm.length ∧
      (getPowerBaseC witnessStats1D true true true true =
          specPowerBase witnessStats1D ∧
        getPowerPolesC witnessStatsPoles true true true true =
          specPowerPoles witnessStatsPoles) :=
  ⟨by decide, by decide, by decide,
    ⟨(getPower_fixed_order witnessStats1D witnessStatsPoles (by decide)
        (by decide) (by decide)
        (by intro i; rcases i with _ | _ | i <;> rfl)).1,
      (getPower_fixed_order witnessStats1D witnessStatsPoles (by decide)
        (by decide) (by decide)
        (by intro i; rcases i with _ | _ | i <;> rfl)).2.2.1⟩⟩

/-- C10: in the multipole `get_power`, `remove_shotnoise=True` changes
only the row at `ells.index(0)` — the shot noise is subtracted from it
(shown before the `wnorm` division) — leaving every row whose order is
not 0 identical to the `remove_shotnoise=False` result; when 0 is not
among the stored orders, `remove_shotnoise` has no effect at all. -/
theorem poles_shotnoise_only_monopole (sp : StatsPoles)
    (ad nz dw : Bool) :
    (∀ ill : ℕ, sp.ells.getD ill 1 ≠ 0 →
      (getPowerPolesC sp ad true nz dw).getD ill [] =
        (getPowerPolesC sp ad false nz dw).getD ill []) ∧
    ((0 ∈ sp.ells →
      (getPowerPolesC sp ad true nz false).getD (sp.ells.indexOf 0) [] =
        ((getPowerPolesC sp ad false nz false).getD (sp.ells.indexOf 0) []).map
          (fun c => c.sub sp.snC)) ∧
    (¬ (0 ∈ sp.ells) →
      getPowerPolesC sp ad true nz dw = getPowerPolesC sp ad false nz dw)) := by
  have hfalse : ¬ ((false : Bool) = true ∧ 0 ∈ sp.ells) :=
    fun h => Bool.false_ne_true h.1
  refine ⟨?_, ?_, ?_⟩
  · intro ill hill
    by_cases hmem : 0 ∈ sp.ells
    · have hlen0 : sp.ells.indexOf 0 < sp.ells.length :=
        List.indexOf_lt_length.mpr hmem
      have hval0 : sp.ells.getD (sp.ells.indexOf 0) 1 = 0 := by
        rw [List.getD_eq_getElem sp.ells 1 hlen0]
        exact List.getElem_indexOf hlen0
      have hne : sp.ells.indexOf 0 ≠ ill := by
        intro h; rw [h] at hval0; exact hill hval0
      simp only [getPowerPolesC, if_pos (And.intro trivial hmem),
        if_neg hfalse]
      have hid : (fun a : List CVal => if sp.ells.indexOf 0 = ill
          then List.map (fun c => c.sub sp.snC) a else a) = id :=
        funext fun a => if_neg hne
      cases dw
      · simp only [Bool.false_eq_true, if_false, List.getD_eq_getElem?_getD,
          List.getElem?_modify, hid]
        set x := (basePass2D sp ad nz)[ill]? with hx
        rcases x with _ | row <;> rfl
      · simp only [if_true, List.getD_eq_getElem?_getD, List.getElem?_map,
          List.getElem?_modify, hid]
        set x := (basePass2D sp ad nz)[ill]? with hx
        rcases x with _ | row <;> rfl
    · simp only [getPowerPolesC,
        if_neg (show ¬ (True ∧ 0 ∈ sp.ells) from fun h => hmem h.2),
        if_neg hfalse]
  · intro hmem
    have hfalse2 : ¬ (False ∧ 0 ∈ sp.ells) := fun h => h.1
    simp only [getPowerPolesC, if_pos (And.intro trivial hmem),
      Bool.false_eq_true, if_neg hfalse2, if_false,
      List.getD_eq_getElem?_getD, List.getElem?_modify, if_true]
    set x := (basePass2D sp ad nz)[sp.ells.indexOf 0]? with hx
    rcases x with _ | row <;> rfl
  · intro hmem
    simp only [getPowerPolesC,
      if_neg (show ¬ (True ∧ 0 ∈ sp.ells) from fun h => hmem h.2),
      if_neg hfalse]

/-- C10 witness: at the concrete instance with orders `[0, 2]`, the
`ell = 2` row is unaffected by shot-noise removal, and the `ell = 0` row
has the shot noise subtracted. -/
theorem poles_shotnoise_only_monopole_witness :
    witnessStatsPoles.ells.getD 1 1 ≠ 0 ∧
      (getPowerPolesC witnessStatsPoles true true true true).getD 1 [] =
        (getPowerPolesC witnessStatsPoles true false true true).getD 1 [] ∧
      (0 ∈ witnessStatsPoles.ells ∧
        (getPowerPolesC witnessStatsPoles true true true false).getD
            (witnessStatsPoles.ells.indexOf 0) [] =
          ((getPowerPolesC witnessStatsPoles true false true false).getD
              (witnessStatsPoles.ells.indexOf 0) []).map
            (fun c => c.sub witnessStatsPoles.snC)) :=
  ⟨by decide,
    (poles_shotnoise_only_monopole witnessStatsPoles true true true).1 1
      (by decide),
    by decide,
    (poles_shotnoise_only_monopole witnessStatsPoles true true false).2.1
      (by decide)⟩

theorem foldl_ofCQ (l : List CQ) (a : CQ) :
    (l.map CVal.ofCQ).foldl CVal.add (CVal.ofCQ a) =
      CVal.ofCQ (l.foldl CQ.add a) := by
  induction l generalizing a with
  | nil => rfl
  | cons x xs ih =>
      simp only [List.map_cons, List.foldl_cons]
      rw [show CVal.add (CVal.ofCQ a) (CVal.ofCQ x) = CVal.ofCQ (CQ.add a x)
        from rfl]
      exact ih _

theorem foldl_val (l : List ℚ) (a : ℚ) :
    (l.map RVal.val).foldl RVal.add (RVal.val a) =
      RVal.val (l.foldl (· + ·) a) := by
  induction l generalizing a with
  | nil => rfl
  | cons x xs ih =>
      simp only [List.map_cons, List.foldl_cons]
      rw [show RVal.add (RVal.val a) (RVal.val x) = RVal.val (a + x) from rfl]
      exact ih _

theorem foldl_zero_cq (l : List CQ) (a : CQ) (h : ∀ x ∈ l, x = CQ.zero) :
    l.foldl CQ.add a = a := by
  induction l generalizing a with
  | nil => rfl
  | cons x xs ih =>
      rw [List.foldl_cons, h x (List.mem_cons_self x xs),
        show CQ.add a CQ.zero = a from by cases a; simp [CQ.add, CQ.zero]]
      exact ih a (fun y hy => h y (List.mem_cons_of_mem _ hy))

theorem foldl_zero_q (l : List ℚ) (a : ℚ) (h : ∀ x ∈ l, x = 0) :
    l.foldl (· + ·) a = a := by
  induction l generalizing a with
  | nil => rfl
  | cons x xs ih =>
      rw [List.foldl_cons, h x (List.mem_cons_self x xs), add_zero]
      exact ih a (fun y hy => h y (List.mem_cons_of_mem _ hy))

/-- An index inside grouped block `j` is a valid index of the array. -/
theorem block_index_lt (n f j i : ℕ) (hj : j < n / f) (hi : i < f) :
    j * f + i < n := by
  have h3 : (j + 1) * f ≤ (n / f) * f :=
    Nat.mul_le_mul_right f (by omega)
  have h4 : (n / f) * f ≤ n := Nat.div_mul_le_self n f
  have h5 : (j + 1) * f = j * f + f := by ring
  omega

theorem foldl_map_ofCQ {α : Type} (g : α → CQ) (l : List α) (a : CQ) :
    (l.map (fun x => CVal.ofCQ (g x))).foldl CVal.add (CVal.ofCQ a) =
      CVal.ofCQ ((l.map g).foldl CQ.add a) := by
  induction l generalizing a with
  | nil => rfl
  | cons x xs ih =>
      simp only [List.map_cons, List.foldl_cons]
      rw [show CVal.add (CVal.ofCQ a) (CVal.ofCQ (g x)) =
        CVal.ofCQ (CQ.add a (g x)) from rfl]
      exact ih _

theorem foldl_map_val {α : Type} (g : α → ℚ) (l : List α) (a : ℚ) :
    (l.map (fun x => RVal.val (g x))).foldl RVal.add (RVal.val a) =
      RVal.val ((l.map g).foldl (· + ·) a) := by
  induction l generalizing a with
  | nil => rfl
  | cons x xs ih =>
      simp only [List.map_cons, List.foldl_cons]
      rw [show RVal.add (RVal.val a) (RVal.val (g x)) =
        RVal.val (a + g x) from rfl]
      exact ih _

/-- `rebin`'s treatment of one averaged complex array is the exact
count-weighted mean of the constituent bins, provided the entries with a
positive count are (finite and) given by `vv`, and the remaining entries
are NaN or finite. -/
theorem rebinAvgC_weighted_mean (nmodes : List ℕ) (f : ℕ) (arr : List CVal)
    (vv : List CQ) (hlen : arr.length = nmodes.length)
    (hok : ∀ i, i < arr.length →
      arr.getD i czero = CVal.ofCQ (vv.getD i CQ.zero) ∨
        ((arr.getD i czero).isnan = true ∧ nmodes.getD i 0 = 0))
    (j : ℕ) (hj : j < arr.length / f) :
    (rebinAvgC f nmodes arr).getD j czero = weightedMeanSpecC f nmodes vv j := by
  have hwlen : (weightC arr nmodes).length = arr.length := by
    simp [weightC, List.length_zipWith, hlen]
  have hj' : j < (weightC arr nmodes).length / f := by rw [hwlen]; exact hj
  have hjn : j < nmodes.length / f := by rw [← hlen]; exact hj
  have hterm : ∀ i ∈ List.range f,
      (weightC arr nmodes).getD (j * f + i) czero =
        CVal.ofCQ (CQ.smul ((nmodes.getD (j * f + i) 0 : ℕ) : ℚ)
          (vv.getD (j * f + i) CQ.zero)) := by
    intro i hi
    have hif : i < f := List.mem_range.mp hi
    have hk : j * f + i < arr.length := block_index_lt arr.length f j i hj hif
    have hkn : j * f + i < nmodes.length := by omega
    have ha : arr[j * f + i]? = some (arr.getD (j * f + i) czero) := by
      rw [List.getElem?_eq_getElem hk, List.getD_eq_getElem arr czero hk]
    have hn : nmodes[j * f + i]? = some (nmodes.getD (j * f + i) 0) := by
      rw [List.getElem?_eq_getElem hkn, List.getD_eq_getElem nmodes 0 hkn]
    rw [weightC, List.getD_eq_getElem?_getD, List.getElem?_zipWith, ha, hn]
    dsimp only
    rcases hok (j * f + i) hk with hfin | ⟨hnan, hzero⟩
    · rw [hfin]
      rcases hv : vv.getD (j * f + i) CQ.zero with ⟨vre, vim⟩
      simp [nanToZeroC, CVal.isnan, RVal.isnan, CVal.ofCQ, CVal.mulR,
        RVal.mul, CQ.smul, mul_comm]
    · rw [hzero, nanToZeroC, if_pos hnan]
      simp [CVal.mulR, RVal.mul, CQ.smul, CVal.ofCQ, czero]
  have hsum : groupSumC f (weightC arr nmodes) j =
      CVal.ofCQ (groupWeightedC f nmodes vv j) := by
    rw [groupSumC, List.map_congr_left hterm, groupWeightedC, qsum]
    exact foldl_map_ofCQ _ _ CQ.zero
  rw [rebinAvgC, List.getD_eq_getElem?_getD, List.getElem?_zipWith]
  have h1 : (rebinSumC f (weightC arr nmodes))[j]? =
      some (groupSumC f (weightC arr nmodes) j) := by
    rw [rebinSumC, List.getElem?_map, List.getElem?_range hj']
    rfl
  have h2 : (rebinSumN f nmodes)[j]? = some (groupSumN f nmodes j) := by
    rw [rebinSumN, List.getElem?_map, List.getElem?_range hjn]
    rfl
  rw [h1, h2]
  dsimp only
  rw [hsum]
  by_cases hN : groupSumN f nmodes j = 0
  · have hz : ∀ i ∈ List.range f, nmodes.getD (j * f + i) 0 = 0 := by
      intro i hi
      have := List.sum_eq_zero_iff.mp hN _
        (List.mem_map.mpr ⟨i, hi, rfl⟩)
      exact this
    have hW : groupWeightedC f nmodes vv j = CQ.zero := by
      rw [groupWeightedC, qsum]
      apply foldl_zero_cq
      intro x hx
      obtain ⟨i, hi, rfl⟩ := List.mem_map.mp hx
      rw [hz i hi]
      simp [CQ.smul, CQ.zero]
    rw [hW, weightedMeanSpecC, if_pos hN]
    simp [CVal.divR, RVal.div, CVal.ofCQ, CQ.zero, hN]
  · rw [weightedMeanSpecC, if_neg hN]
    have hNq : ((groupSumN f nmodes j : ℕ) : ℚ) ≠ 0 := Nat.cast_ne_zero.mpr hN
    simp [CVal.divR, RVal.div, CVal.ofCQ, hNq]

/-- `rebin`'s treatment of one averaged real array is the exact
count-weighted mean of the constituent bins. -/
theorem rebinAvgR_weighted_mean (nmodes : List ℕ) (f : ℕ) (arr : List RVal)
    (vv : List ℚ) (hlen : arr.length = nmodes.length)
    (hok : ∀ i, i < arr.length →
      arr.getD i RVal.nan = RVal.val (vv.getD i 0) ∨
        ((arr.getD i RVal.nan).isnan = true ∧ nmodes.getD i 0 = 0))
    (j : ℕ) (hj : j < arr.length / f) :
    (rebinAvgR f nmodes arr).getD j RVal.nan = weightedMeanSpecR f nmodes vv j := by
  have hwlen : (weightR arr nmodes).length = arr.length := by
    simp [weightR, List.length_zipWith, hlen]
  have hj' : j < (weightR arr nmodes).length / f := by rw [hwlen]; exact hj
  have hjn : j < nmodes.length / f := by rw [← hlen]; exact hj
  have hterm : ∀ i ∈ List.range f,
      (weightR arr nmodes).getD (j * f + i) (RVal.val 0) =
        RVal.val (((nmodes.getD (j * f + i) 0 : ℕ) : ℚ) *
          vv.getD (j * f + i) 0) := by
    intro i hi
    have hif : i < f := List.mem_range.mp hi
    have hk : j * f + i < arr.length := block_index_lt arr.length f j i hj hif
    have hkn : j * f + i < nmodes.length := by omega
    have ha : arr[j * f + i]? = some (arr.getD (j * f + i) RVal.nan) := by
      rw [List.getElem?_eq_getElem hk, List.getD_eq_getElem arr RVal.nan hk]
    have hn : nmodes[j * f + i]? = some (nmodes.getD (j * f + i) 0) := by
      rw [List.getElem?_eq_getElem hkn, List.getD_eq_getElem nmodes 0 hkn]
    rw [weightR, List.getD_eq_getElem?_getD, List.getElem?_zipWith, ha, hn]
    dsimp only
    rcases hok (j * f + i) hk with hfin | ⟨hnan, hzero⟩
    · rw [hfin]
      simp [nanToZero, RVal.isnan, RVal.mul, mul_comm]
    · rw [hzero, nanToZero, if_pos hnan]
      simp [RVal.mul]
  have hsum : groupSumR f (weightR arr nmodes) j =
      RVal.val (groupWeightedR f nmodes vv j) := by
    rw [groupSumR, List.map_congr_left hterm, groupWeightedR]
    exact foldl_map_val _ _ 0
  rw [rebinAvgR, List.getD_eq_getElem?_getD, List.getElem?_zipWith]
  have h1 : (rebinSumR f (weightR arr nmodes))[j]? =
      some (groupSumR f (weightR arr nmodes) j) := by
    rw [rebinSumR, List.getElem?_map, List.getElem?_range hj']
    rfl
  have h2 : (rebinSumN f nmodes)[j]? = some (groupSumN f nmodes j) := by
    rw [rebinSumN, List.getElem?_map, List.getElem?_range hjn]
    rfl
  rw [h1, h2]
  dsimp only
  rw [hsum]
  by_cases hN : groupSumN f nmodes j = 0
  · have hz : ∀ i ∈ List.range f, nmodes.getD (j * f + i) 0 = 0 := by
      intro i hi
      exact List.sum_eq_zero_iff.mp hN _ (List.mem_map.mpr ⟨i, hi, rfl⟩)
    have hW : groupWeightedR f nmodes vv j = 0 := by
      rw [groupWeightedR]
      apply foldl_zero_q
      intro x hx
      obtain ⟨i, hi, rfl⟩ := List.mem_map.mp hx
      rw [hz i hi]
      simp
    rw [hW, weightedMeanSpecR, if_pos hN]
    simp [RVal.div, hN]
  · rw [weightedMeanSpecR, if_neg hN]
    have hNq : ((groupSumN f nmodes j : ℕ) : ℚ) ≠ 0 := Nat.cast_ne_zero.mpr hN
    simp [RVal.div, hNq]

/-- C6: for every factor that evenly divides the bin count, `rebin`
replaces `nmodes` by the direct sum of the grouped counts, and replaces
each averaged field (`modes`, `power_nonorm`, `power_direct_nonorm`) of
a group by the sum of the old per-bin values weighted by their old
`nmodes`, divided by the new grouped `nmodes` — the exact
`nmodes`-weighted mean of the constituent bins, not an average of
averages. -/
theorem rebin_weighted_mean (s : Stats1D) (f : ℕ) (hf : f ≠ 0)
    (hdvd : (s.edges.length - 1) % f = 0) :
    (∃ s2, rebinStats s f = Except.ok s2 ∧
      s2.nmodes = rebinSumN f s.nmodes ∧
      s2.modes = rebinAvgR f s.nmodes s.modes ∧
      s2.power_nonorm = rebinAvgC f s.nmodes s.power_nonorm ∧
      s2.power_direct_nonorm = rebinAvgC f s.nmodes s.power_direct_nonorm) ∧
    (∀ j, j < s.nmodes.length / f →
      (rebinSumN f s.nmodes).getD j 0 = groupSumN f s.nmodes j) ∧
    (∀ (arr : List CVal) (vv : List CQ), arr.length = s.nmodes.length →
      (∀ i, i < arr.length →
        arr.getD i czero = CVal.ofCQ (vv.getD i CQ.zero) ∨
          ((arr.getD i czero).isnan = true ∧ s.nmodes.getD i 0 = 0)) →
      ∀ j, j < arr.length / f →
        (rebinAvgC f s.nmodes arr).getD j czero =
          weightedMeanSpecC f s.nmodes vv j) ∧
    (∀ (arr : List RVal) (vv : List ℚ), arr.length = s.nmodes.length →
      (∀ i, i < arr.length →
        arr.getD i RVal.nan = RVal.val (vv.getD i 0) ∨
          ((arr.getD i RVal.nan).isnan = true ∧ s.nmodes.getD i 0 = 0)) →
      ∀ j, j < arr.length / f →
        (rebinAvgR f s.nmodes arr).getD j RVal.nan =
          weightedMeanSpecR f s.nmodes vv j) := by
  refine ⟨⟨{ edges := strideEdges f s.edges
             modes := rebinAvgR f s.nmodes s.modes
             power_nonorm := rebinAvgC f s.nmodes s.power_nonorm
             power_zero_nonorm := s.power_zero_nonorm
             power_direct_nonorm := rebinAvgC f s.nmodes s.power_direct_nonorm
             nmodes := rebinSumN f s.nmodes
             wnorm := s.wnorm
             shotnoise_nonorm := s.shotnoise_nonorm },
      by rw [rebinStats, if_neg hf, if_neg (fun h => h hdvd)],
      rfl, rfl, rfl, rfl⟩, ?_, ?_, ?_⟩
  · intro j hj
    rw [rebinSumN, List.getD_eq_getElem?_getD, List.getElem?_map,
      List.getElem?_range hj]
    rfl
  · intro arr vv hlen hok j hj
    exact rebinAvgC_weighted_mean s.nmodes f arr vv hlen hok j hj
  · intro arr vv hlen hok j hj
    exact rebinAvgR_weighted_mean s.nmodes f arr vv hlen hok j hj

/-- C6 witness: rebinning the concrete two-bin instance by a factor 2
yields the weighted mean of its bins. -/
theorem rebin_weighted_mean_witness :
    (2 : ℕ) ≠ 0 ∧ (witnessStats1D.edges.length - 1) % 2 = 0 ∧
      witnessStats1D.power_nonorm.length = witnessStats1D.nmodes.length ∧
      (rebinAvgC 2 witnessStats1D.nmodes witnessStats1D.power_nonorm).getD 0
          czero =
        weightedMeanSpecC 2 witnessStats1D.nmodes
          [{ re := 2, im := 1 }, CQ.zero] 0 :=
  ⟨by decide, by decide, by decide,
    (rebin_weighted_mean witnessStats1D 2 (by decide) (by decide)).2.2.1
      witnessStats1D.power_nonorm [{ re := 2, im := 1 }, CQ.zero] (by decide)
      (by
        intro i hi
        have hi2 : i < 2 := by
          simpa [witnessStats1D] using hi
        interval_cases i
        · exact Or.inl (by decide)
        · exact Or.inr (by decide))
      0 (by decide)⟩

theorem map_range_getD {α : Type} (l : List α) (d : α) :
    (List.range l.length).map (fun j => l.getD j d) = l := by
  apply List.ext_getElem?
  intro n
  by_cases hn : n < l.length
  · rw [List.getElem?_map, List.getElem?_range hn, List.getElem?_eq_getElem hn]
    simp only [Option.map_some']
    rw [List.getD_eq_getElem l d hn]
  · rw [List.getElem?_eq_none
      (by simp only [List.length_map, List.length_range]; omega),
      List.getElem?_eq_none (by omega)]

theorem strideEdges_one (l : List ℚ) : strideEdges 1 l = l := by
  rw [strideEdges]
  simp only [Nat.add_sub_cancel, Nat.div_one, mul_one]
  exact map_range_getD l 0

theorem rebinSumN_one (l : List ℕ) : rebinSumN 1 l = l := by
  rw [rebinSumN]
  simp only [Nat.div_one]
  have h : ∀ j, groupSumN 1 l j = l.getD j 0 := by
    intro j
    rw [groupSumN, show List.range 1 = [0] from rfl]
    simp
  rw [List.map_congr_left (fun j _ => h j)]
  exact map_range_getD l 0

theorem rval_zero_add (x : RVal) : RVal.add (RVal.val 0) x = x := by
  rcases x with _ | q | _ | _ <;> simp [RVal.add]

theorem cval_zero_add (x : CVal) : CVal.add czero x = x := by
  cases x
  simp [CVal.add, czero, rval_zero_add]

/-- Weighting a non-NaN value by a positive count and dividing by the
same count is the identity (finite or infinite). -/
theorem rval_mul_div_self (x : RVal) (n : ℕ) (hn : n ≠ 0)
    (hx : x.isnan = false) :
    ((x.mul (RVal.val (n : ℚ))).div (RVal.val (n : ℚ))) = x := by
  have hq : ((n : ℕ) : ℚ) ≠ 0 := Nat.cast_ne_zero.mpr hn
  have hqpos : (0 : ℚ) < (n : ℚ) := by
    exact_mod_cast Nat.pos_of_ne_zero hn
  rcases x with _ | q | _ | _
  · simp [RVal.isnan] at hx
  · have : q * (n : ℚ) / (n : ℚ) = q := by field_simp
    simp [RVal.mul, RVal.div, hq, this]
  · simp [RVal.mul, RVal.div, hqpos, lt_asymm hqpos]
  · simp [RVal.mul, RVal.div, hqpos, lt_asymm hqpos]

theorem groupSumR_one (l : List RVal) (j : ℕ) :
    groupSumR 1 l j = l.getD j (RVal.val 0) := by
  rw [groupSumR, show List.range 1 = [0] from rfl]
  simp [rval_zero_add]

theorem groupSumC_one (l : List CVal) (j : ℕ) :
    groupSumC 1 l j = l.getD j czero := by
  rw [groupSumC, show List.range 1 = [0] from rfl]
  simp [cval_zero_add]

/-- `rebin(1)` leaves an averaged real array unchanged when its entries
are NaN exactly at the zero-count bins. -/
theorem rebinAvgR_one (modes : List RVal) (nm : List ℕ)
    (hm : modes.length = nm.length)
    (hmod : ∀ i, i < nm.length →
      (nm.getD i 0 = 0 → modes.getD i RVal.nan = RVal.nan) ∧
      (nm.getD i 0 ≠ 0 → (modes.getD i RVal.nan).isnan = false)) :
    rebinAvgR 1 nm modes = modes := by
  have hwlen : (weightR modes nm).length = nm.length := by
    simp [weightR, List.length_zipWith, hm]
  rw [rebinAvgR, rebinSumN_one]
  apply List.ext_getElem?
  intro n
  by_cases hn : n < nm.length
  · have hn' : n < modes.length := by omega
    have h1 : (rebinSumR 1 (weightR modes nm))[n]? =
        some (groupSumR 1 (weightR modes nm) n) := by
      rw [rebinSumR, List.getElem?_map,
        List.getElem?_range (by rw [Nat.div_one, hwlen]; exact hn)]
      rfl
    have h2 : nm[n]? = some (nm.getD n 0) := by
      rw [List.getElem?_eq_getElem hn, List.getD_eq_getElem nm 0 hn]
    have h3 : modes[n]? = some (modes.getD n RVal.nan) := by
      rw [List.getElem?_eq_getElem hn', List.getD_eq_getElem modes RVal.nan hn']
    have h4 : (weightR modes nm).getD n (RVal.val 0) =
        (nanToZero (modes.getD n RVal.nan)).mul (RVal.val ((nm.getD n 0 : ℕ) : ℚ)) := by
      rw [weightR, List.getD_eq_getElem?_getD, List.getElem?_zipWith, h3, h2]
      rfl
    rw [List.getElem?_zipWith, h1, h2, h3]
    dsimp only
    rw [groupSumR_one, h4]
    by_cases hz : nm.getD n 0 = 0
    · rw [hz, (hmod n hn).1 hz]
      simp [nanToZero, RVal.isnan, RVal.mul, RVal.div]
    · rw [nanToZero, if_neg (by rw [(hmod n hn).2 hz]; exact Bool.false_ne_true),
        rval_mul_div_self _ _ hz ((hmod n hn).2 hz)]
  · rw [List.getElem?_eq_none (by
      simp only [List.length_zipWith, rebinSumR, List.length_map,
        List.length_range, Nat.div_one, hwlen]
      omega),
      List.getElem?_eq_none (by omega)]

/-- `rebin(1)` leaves an averaged complex array unchanged when its
entries are `nan + nan*j` exactly at the zero-count bins and nan-free
elsewhere. -/
theorem rebinAvgC_one (arr : List CVal) (nm : List ℕ)
    (hm : arr.length = nm.length)
    (harr : ∀ i, i < nm.length →
      (nm.getD i 0 = 0 → arr.getD i czero = ⟨RVal.nan, RVal.nan⟩) ∧
      (nm.getD i 0 ≠ 0 → (arr.getD i czero).isnan = false)) :
    rebinAvgC 1 nm arr = arr := by
  have hwlen : (weightC arr nm).length = nm.length := by
    simp [weightC, List.length_zipWith, hm]
  rw [rebinAvgC, rebinSumN_one]
  apply List.ext_getElem?
  intro n
  by_cases hn : n < nm.length
  · have hn' : n < arr.length := by omega
    have h1 : (rebinSumC 1 (weightC arr nm))[n]? =
        some (groupSumC 1 (weightC arr nm) n) := by
      rw [rebinSumC, List.getElem?_map,
        List.getElem?_range (by rw [Nat.div_one, hwlen]; exact hn)]
      rfl
    have h2 : nm[n]? = some (nm.getD n 0) := by
      rw [List.getElem?_eq_getElem hn, List.getD_eq_getElem nm 0 hn]
    have h3 : arr[n]? = some (arr.getD n czero) := by
      rw [List.getElem?_eq_getElem hn', List.getD_eq_getElem arr czero hn']
    have h4 : (weightC arr nm).getD n czero =
        (nanToZeroC (arr.getD n czero)).mulR (RVal.val ((nm.getD n 0 : ℕ) : ℚ)) := by
      rw [weightC, List.getD_eq_getElem?_getD, List.getElem?_zipWith, h3, h2]
      rfl
    rw [List.getElem?_zipWith, h1, h2, h3]
    dsimp only
    rw [groupSumC_one, h4]
    by_cases hz : nm.getD n 0 = 0
    · rw [hz, (harr n hn).1 hz]
      simp [nanToZeroC, CVal.isnan, RVal.isnan, CVal.mulR, CVal.divR,
        RVal.mul, RVal.div, czero]
    · have hnn : (arr.getD n czero).isnan = false := (harr n hn).2 hz
      rw [nanToZeroC, if_neg (by rw [hnn]; exact Bool.false_ne_true)]
      rcases hv : arr.getD n czero with ⟨vre, vim⟩
      rw [hv] at hnn
      have hparts : vre.isnan = false ∧ vim.isnan = false := by
        rcases Bool.or_eq_false_iff.mp hnn with ⟨h5, h6⟩
        exact ⟨h5, h6⟩
      refine congrArg some ?_
      rw [CVal.mulR, CVal.divR]
      simp only
      rw [rval_mul_div_self _ _ hz hparts.1, rval_mul_div_self _ _ hz hparts.2]
  · rw [List.getElem?_eq_none (by
      simp only [List.length_zipWith, rebinSumC, List.length_map,
        List.length_range, Nat.div_one, hwlen]
      omega),
      List.getElem?_eq_none (by omega)]

/-- C7 counterexample: `rebin(1)` is not a no-op on every statistics
instance.  On `counterexC7` — one empty bin whose averaged entry is the
finite value 0 rather than NaN — `rebin(1)` replaces that 0 by NaN
(`0 * 0 / 0`), so the arrays are not bit-identical. -/
theorem rebin_one_claim_false : ¬ rebinNoOpClaim := by
  intro h
  have h1 := h counterexC7
  rw [rebinStats, if_neg (by decide : ¬ (1 = 0)),
    if_neg (by norm_num [counterexC7])] at h1
  have hval : rebinAvgR 1 counterexC7.nmodes counterexC7.modes = [RVal.nan] := by
    norm_num [rebinAvgR, rebinSumR, rebinSumN, groupSumR, groupSumN, weightR,
      nanToZero, RVal.isnan, RVal.mul, RVal.div, RVal.add, counterexC7,
      show List.range 1 = [0] from rfl]
  simp only [Except.ok.injEq] at h1
  have h3 := congrArg Stats1D.modes h1
  rw [hval] at h3
  simp [counterexC7] at h3

/-- C7 (amended): `rebin(1)` is a no-op — the result is identical to the
input, NaN entries of empty bins included — on every instance whose
averaged fields are NaN exactly at the bins with `nmodes = 0` (which is
how the estimators fill `modes` and `power_nonorm`; a finite value in an
empty bin, as in the default all-zero `power_direct_nonorm`, is instead
washed to NaN). -/
theorem rebin_one_noop (s : Stats1D)
    (hm : s.modes.length = s.nmodes.length)
    (hp : s.power_nonorm.length = s.nmodes.length)
    (hd2 : s.power_direct_nonorm.length = s.nmodes.length)
    (hmod : ∀ i, i < s.nmodes.length →
      (s.nmodes.getD i 0 = 0 → s.modes.getD i RVal.nan = RVal.nan) ∧
      (s.nmodes.getD i 0 ≠ 0 → (s.modes.getD i RVal.nan).isnan = false))
    (hpow : ∀ i, i < s.nmodes.length →
      (s.nmodes.getD i 0 = 0 →
        s.power_nonorm.getD i czero = ⟨RVal.nan, RVal.nan⟩) ∧
      (s.nmodes.getD i 0 ≠ 0 → (s.power_nonorm.getD i czero).isnan = false))
    (hdir : ∀ i, i < s.nmodes.length →
      (s.nmodes.getD i 0 = 0 →
        s.power_direct_nonorm.getD i czero = ⟨RVal.nan, RVal.nan⟩) ∧
      (s.nmodes.getD i 0 ≠ 0 →
        (s.power_direct_nonorm.getD i czero).isnan = false)) :
    rebinStats s 1 = Except.ok s := by
  rw [rebinStats, if_neg (by decide : ¬ (1 = 0)),
    if_neg (by simp [Nat.mod_one])]
  rcases s with ⟨se, smo, spw, spz, spd, snm, sw, ssn⟩
  simp only [Except.ok.injEq, Stats1D.mk.injEq]
  exact ⟨strideEdges_one se, rebinAvgR_one smo snm hm hmod,
    rebinAvgC_one spw snm hp hpow, trivial, rebinAvgC_one spd snm hd2 hdir,
    rebinSumN_one snm, trivial, trivial⟩

/-- C7 witness: `rebin(1)` is the identity on the concrete instance
whose NaN pattern matches its empty bin. -/
theorem rebin_one_noop_witness :
    witnessC7.modes.length = witnessC7.nmodes.length ∧
      witnessC7.power_nonorm.length = witnessC7.nmodes.length ∧
      witnessC7.power_direct_nonorm.length = witnessC7.nmodes.length ∧
      rebinStats witnessC7 1 = Except.ok witnessC7 :=
  ⟨by decide, by decide, by decide,
    rebin_one_noop witnessC7 (by decide) (by decide) (by decide)
      (by
        intro i hi
        have h2 : i < 2 := by simpa [witnessC7] using hi
        interval_cases i
        · exact ⟨fun h => absurd h (by decide), fun _ => by decide⟩
        · exact ⟨fun _ => by decide, fun h => absurd (by decide) h⟩)
      (by
        intro i hi
        have h2 : i < 2 := by simpa [witnessC7] using hi
        interval_cases i
        · exact ⟨fun h => absurd h (by decide), fun _ => by decide⟩
        · exact ⟨fun _ => by decide, fun h => absurd (by decide) h⟩)
      (by
        intro i hi
        have h2 : i < 2 := by simpa [witnessC7] using hi
        interval_cases i
        · exact ⟨fun h => absurd h (by decide), fun _ => by decide⟩
        · exact ⟨fun _ => by decide, fun h => absurd (by decide) h⟩)⟩

/-- C9 counterexample: the claim as stated is false — the keyword
`"Z"` lies outside the literal allowed set, yet setup succeeds, because
`_get_los` lower-cases the keyword before checking membership. -/
theorem config_error_claim_false : ¬ configErrorClaim := by
  intro h
  obtain ⟨e, he⟩ := h.1 (fun _ _ _ => ()) counterexC9 (by decide)
  rw [show meshPowerInit (fun _ _ _ => ()) counterexC9 = Except.ok ()
    from rfl] at he
  exact Except.noConfusion he

theorem meshPowerInit_after_los {α : Type}
    (run : LosSpec → Option (List ℤ) → List ℚ × List ℚ → α)
    (cfg : MeshPowerConfig) (spec : LosSpec)
    (hg : getLosStr cfg.los = Except.ok spec) :
    meshPowerInit run cfg =
      (setElls cfg.ells spec.isGlobal).bind (fun ells =>
        (setEdges cfg.kedges cfg.muedges spec.isGlobal).bind (fun edges =>
          Except.ok (run spec ells edges))) := by
  rw [meshPowerInit, hg]
  rfl

theorem meshPowerInit_after_ells {α : Type}
    (run : LosSpec → Option (List ℤ) → List ℚ × List ℚ → α)
    (cfg : MeshPowerConfig) (spec : LosSpec) (ells : Option (List ℤ))
    (hg : getLosStr cfg.los = Except.ok spec)
    (he : setElls cfg.ells spec.isGlobal = Except.ok ells) :
    meshPowerInit run cfg =
      (setEdges cfg.kedges cfg.muedges spec.isGlobal).bind (fun edges =>
        Except.ok (run spec ells edges)) := by
  rw [meshPowerInit_after_los run cfg spec hg, he]
  rfl

theorem setElls_some_neg (l : List ℤ) (g : Bool)
    (hneg : l.any (fun ell => decide (ell < 0)) = true) :
    setElls (some l) g =
      Except.error "Multipole numbers must be non-negative integers" := by
  have hlne : l ≠ [] := by
    intro h0
    rw [h0] at hneg
    exact Bool.false_ne_true hneg
  simp only [setElls]
  rw [if_neg (by rintro ⟨-, h0⟩; exact hlne h0), if_pos hneg]

theorem setEdges_short (ke : List ℚ) (mu : Option (List ℚ)) (g : Bool)
    (h : ke.length < 2 ∨ ∃ m, mu = some m ∧ m.length < 2) :
    ∃ e, setEdges ke mu g = Except.error e := by
  rcases hm : mu with _ | m
  · rcases h with hk | ⟨m, hsome, -⟩
    · refine ⟨"k-edges are of size < 2", ?_⟩
      simp only [setEdges]
      rw [if_pos hk]
    · rw [hm] at hsome
      exact Option.noConfusion hsome
  · by_cases hw : ¬ (g : Prop) ∧ 2 < m.length
    · refine ⟨"Cannot compute wedges with local line-of-sight", ?_⟩
      simp only [setEdges]
      rw [if_pos hw]
    · by_cases hk : ke.length < 2
      · refine ⟨"k-edges are of size < 2", ?_⟩
        simp only [setEdges]
        rw [if_neg hw]
        simp only
        rw [if_pos hk]
      · rcases h with hk2 | ⟨m2, hsome, hmu⟩
        · exact absurd hk2 hk
        · rw [hm] at hsome
          obtain rfl : m2 = m := (Option.some.injEq _ _ ▸ hsome).symm
          refine ⟨"mu-edges are of size < 2", ?_⟩
          simp only [setEdges]
          rw [if_neg hw]
          simp only
          rw [if_neg hk, if_pos hmu]

/-- C9 (amended): with keyword membership checked after lower-casing,
each configuration error — line-of-sight keyword outside the allowed
set, a negative multipole order, a `k`- or `mu`-edge sequence of fewer
than two entries — aborts the setup with a fatal error before the
measurement `run` is invoked (the result is an `error` for every
possible `run`, with no retry). -/
theorem config_errors_raise_at_setup :
    (∀ (α : Type) (run : LosSpec → Option (List ℤ) → List ℚ × List ℚ → α)
      (cfg : MeshPowerConfig), ¬ (cfg.los.map Char.toLower ∈ allowedLos) →
        meshPowerInit run cfg =
          Except.error "los should be one of [firstpoint, endpoint, x, y, z]") ∧
    (∀ (α : Type) (run : LosSpec → Option (List ℤ) → List ℚ × List ℚ → α)
      (cfg : MeshPowerConfig) (l : List ℤ), cfg.ells = some l →
        l.any (fun ell => decide (ell < 0)) = true →
        ∃ e, meshPowerInit run cfg = Except.error e) ∧
    (∀ (α : Type) (run : LosSpec → Option (List ℤ) → List ℚ × List ℚ → α)
      (cfg : MeshPowerConfig), cfg.kedges.length < 2 →
        ∃ e, meshPowerInit run cfg = Except.error e) ∧
    (∀ (α : Type) (run : LosSpec → Option (List ℤ) → List ℚ × List ℚ → α)
      (cfg : MeshPowerConfig) (m : List ℚ), cfg.muedges = some m →
        m.length < 2 →
        ∃ e, meshPowerInit run cfg = Except.error e) := by
  refine ⟨?_, ?_, ?_, ?_⟩
  · intro α run cfg h
    rw [meshPowerInit]
    simp only [getLosStr]
    rw [if_neg h]
    rfl
  · intro α run cfg l hl hneg
    rcases hg : getLosStr cfg.los with e | spec
    · exact ⟨e, by rw [meshPowerInit, hg]; rfl⟩
    · refine ⟨"Multipole numbers must be non-negative integers", ?_⟩
      rw [meshPowerInit_after_los run cfg spec hg, hl,
        setElls_some_neg l spec.isGlobal hneg]
      rfl
  · intro α run cfg hk
    rcases hg : getLosStr cfg.los with e | spec
    · exact ⟨e, by rw [meshPowerInit, hg]; rfl⟩
    · rcases he : setElls cfg.ells spec.isGlobal with e | ells
      · exact ⟨e, by rw [meshPowerInit_after_los run cfg spec hg, he]; rfl⟩
      · obtain ⟨e, hee⟩ := setEdges_short cfg.kedges cfg.muedges spec.isGlobal
          (Or.inl hk)
        exact ⟨e, by
          rw [meshPowerInit_after_ells run cfg spec ells hg he, hee]
          rfl⟩
  · intro α run cfg m hm hmu
    rcases hg : getLosStr cfg.los with e | spec
    · exact ⟨e, by rw [meshPowerInit, hg]; rfl⟩
    · rcases he : setElls cfg.ells spec.isGlobal with e | ells
      · exact ⟨e, by rw [meshPowerInit_after_los run cfg spec hg, he]; rfl⟩
      · obtain ⟨e, hee⟩ := setEdges_short cfg.kedges cfg.muedges spec.isGlobal
          (Or.inr ⟨m, hm, hmu⟩)
        exact ⟨e, by
          rw [meshPowerInit_after_ells run cfg spec ells hg he, hee]
          rfl⟩

/-- C9 witness: each configuration error at a concrete bad
configuration. -/
theorem config_errors_raise_at_setup_witness :
    (¬ (badLosCfg.los.map Char.toLower ∈ allowedLos) ∧
      meshPowerInit (fun _ _ _ => ()) badLosCfg =
        Except.error "los should be one of [firstpoint, endpoint, x, y, z]") ∧
    (badEllsCfg.ells = some [0, -2] ∧
      ∃ e, meshPowerInit (fun _ _ _ => ()) badEllsCfg = Except.error e) ∧
    (badKCfg.kedges.length < 2 ∧
      ∃ e, meshPowerInit (fun _ _ _ => ()) badKCfg = Except.error e) ∧
    (badMuCfg.muedges = some [1] ∧
      ∃ e, meshPowerInit (fun _ _ _ => ()) badMuCfg = Except.error e) :=
  ⟨⟨by decide, config_errors_raise_at_setup.1 Unit (fun _ _ _ => ())
      badLosCfg (by decide)⟩,
    ⟨rfl, config_errors_raise_at_setup.2.1 Unit (fun _ _ _ => ())
      badEllsCfg [0, -2] rfl (by decide)⟩,
    ⟨by decide, config_errors_raise_at_setup.2.2.1 Unit (fun _ _ _ => ())
      badKCfg (by decide)⟩,
    ⟨rfl, config_errors_raise_at_setup.2.2.2 Unit (fun _ _ _ => ())
      badMuCfg [1] rfl (by decide)⟩⟩

/-- Truncation toward zero is monotone. -/
theorem truncQ_mono {a b : ℚ} (hab : a ≤ b) : truncQ a ≤ truncQ b := by
  rw [truncQ, truncQ]
  by_cases ha : 0 ≤ a
  · rw [if_pos ha, if_pos (le_trans ha hab)]
    exact Int.floor_le_floor hab
  · rw [if_neg ha]
    by_cases hb : 0 ≤ b
    · rw [if_pos hb]
      have h1 : (0 : ℤ) ≤ ⌊b⌋ := Int.le_floor.mpr (by exact_mod_cast hb)
      have h2 : (0 : ℤ) ≤ ⌊-a⌋ := Int.le_floor.mpr (by push_cast; linarith)
      omega
    · rw [if_neg hb]
      have := Int.floor_le_floor (show -b ≤ -a by linarith)
      omega

/-- The rounding key is monotone (the affine argument map is increasing
since `(x0/2)^2 > 0`). -/
theorem roundKey_mono (x0 : ℚ) (hx0 : x0 ≠ 0) {a b : ℚ} (hab : a ≤ b) :
    roundKey x0 a ≤ roundKey x0 b := by
  apply truncQ_mono
  have hq : (0 : ℚ) < (x0 / 2) ^ 2 := by positivity
  gcongr

/-- Representatives in `uniqueSorted` come from the input list. -/
theorem uniqueSorted_subset (x0 : ℚ) (l : List ℚ) :
    ∀ v ∈ uniqueSorted x0 l, v ∈ l := by
  intro v hv
  rw [uniqueSorted] at hv
  obtain ⟨k, hk, hrep⟩ := List.mem_map.mp hv
  have hkeys : k ∈ l.map (roundKey x0) := by
    rw [← List.mem_dedup]
    exact ((List.perm_insertionSort _ _).mem_iff).mp hk
  obtain ⟨w, hw, hwk⟩ := List.mem_map.mp hkeys
  have hsome : (l.find? (fun v => roundKey x0 v = k)).isSome = true := by
    rw [List.find?_isSome]
    exact ⟨w, hw, by simp [hwk]⟩
  obtain ⟨r, hr⟩ := Option.isSome_iff_exists.mp hsome
  rw [hr] at hrep
  rw [← hrep]
  exact List.mem_of_find?_eq_some hr

/-- `uniqueSorted` is strictly increasing. -/
theorem uniqueSorted_sorted (x0 : ℚ) (hx0 : x0 ≠ 0) (l : List ℚ) :
    List.Sorted (· < ·) (uniqueSorted x0 l) := by
  rw [uniqueSorted]
  set keys := (l.map (roundKey x0)).dedup with hkeys
  have hnd : (keys.insertionSort (· ≤ ·)).Nodup :=
    ((List.perm_insertionSort _ _).nodup_iff).mpr (List.nodup_dedup _)
  have hsorted : (keys.insertionSort (· ≤ ·)).Sorted (· < ·) :=
    List.Sorted.lt_of_le (List.sorted_insertionSort _ _) hnd
  rw [List.Sorted, List.pairwise_map]
  refine hsorted.imp_of_mem ?_
  intro k1 k2 hk1 hk2 hlt
  have hrep : ∀ k ∈ keys.insertionSort (· ≤ ·),
      ∃ r, l.find? (fun v => roundKey x0 v = k) = some r ∧
        roundKey x0 r = k := by
    intro k hk
    have hkeys2 : k ∈ l.map (roundKey x0) := by
      rw [← List.mem_dedup]
      exact ((List.perm_insertionSort _ _).mem_iff).mp hk
    obtain ⟨w, hw, hwk⟩ := List.mem_map.mp hkeys2
    have hsome : (l.find? (fun v => roundKey x0 v = k)).isSome = true := by
      rw [List.find?_isSome]
      exact ⟨w, hw, by simp [hwk]⟩
    obtain ⟨r, hr⟩ := Option.isSome_iff_exists.mp hsome
    exact ⟨r, hr, by simpa using List.find?_some hr⟩
  obtain ⟨r1, hr1, hk1eq⟩ := hrep k1 hk1
  obtain ⟨r2, hr2, hk2eq⟩ := hrep k2 hk2
  rw [hr1, hr2]
  show r1 < r2
  by_contra hle
  have h2 : r2 ≤ r1 := not_lt.mp hle
  have := roundKey_mono x0 hx0 h2
  rw [hk1eq, hk2eq] at this
  omega

/-- Members of the globally deduplicated list obey the squared bounds
of the local filter. -/
theorem globalUnique_bounds (x0 xmin xmax : ℚ)
    (ranks : List (List (ℚ × ℚ × ℚ))) :
    ∀ v ∈ globalUnique x0 xmin xmax ranks,
      xmin ^ 2 ≤ v ∧ v ≤ xmax ^ 2 := by
  intro v hv
  have hj := uniqueSorted_subset x0 _ v hv
  obtain ⟨L, hL, hvL⟩ := List.mem_join.mp hj
  obtain ⟨pts, -, hpts⟩ := List.mem_map.mp hL
  rw [← hpts] at hvL
  rw [uniqueLocal] at hvL
  have := (List.mem_filter.mp hvL).2
  rw [Bool.and_eq_true, decide_eq_true_eq, decide_eq_true_eq] at this
  exact this

theorem midEdges_length : ∀ fx : List ℚ, (midEdges fx).length = fx.length - 1
  | [] => rfl
  | [_] => rfl
  | a :: b :: rest => by
      rw [midEdges, List.length_cons, midEdges_length (b :: rest)]
      simp

theorem midEdges_getD : ∀ (fx : List ℚ) (i : ℕ), i + 1 < fx.length →
    (midEdges fx).getD i 0 = (fx.getD i 0 + fx.getD (i + 1) 0) / 2
  | [], i, h => by simp at h
  | [_], i, h => by simp at h
  | a :: b :: rest, 0, _ => rfl
  | a :: b :: rest, i + 1, h => by
      rw [midEdges]
      show (midEdges (b :: rest)).getD i 0 = _
      rw [midEdges_getD (b :: rest) i (by simpa using h)]
      rfl

/-- Nonnegative rationals compare strictly as their squares do. -/
theorem lt_of_sq_lt_sq {x y : ℚ} (hy : 0 ≤ y) (h : x ^ 2 < y ^ 2) : x < y := by
  nlinarith

/-- Nonnegative rationals compare as their squares do. -/
theorem le_of_sq_le_sq {x y : ℚ} (hx : 0 ≤ x) (hy : 0 ≤ y)
    (h : x ^ 2 ≤ y ^ 2) : x ≤ y := by
  nlinarith

/-- Under an exact nonnegative square root, the unique norms are
strictly increasing. -/
theorem uniqueNorms_sorted (x0 xmin xmax : ℚ)
    (ranks : List (List (ℚ × ℚ × ℚ))) (sq : ℚ → ℚ) (hx0 : x0 ≠ 0)
    (hsq : ∀ v ∈ globalUnique x0 xmin xmax ranks, 0 ≤ sq v ∧ sq v ^ 2 = v) :
    List.Sorted (· < ·) (uniqueNorms x0 xmin xmax ranks sq) := by
  rw [uniqueNorms, List.Sorted, List.pairwise_map]
  have hgs : List.Sorted (· < ·) (globalUnique x0 xmin xmax ranks) :=
    uniqueSorted_sorted x0 hx0 _
  refine hgs.imp_of_mem ?_
  intro a b ha hb hab
  obtain ⟨ha0, ha2⟩ := hsq a ha
  obtain ⟨hb0, hb2⟩ := hsq b hb
  exact lt_of_sq_lt_sq hb0 (by rw [ha2, hb2]; exact hab)

/-- The unique norms lie between `xmin` and `xmax`. -/
theorem uniqueNorms_bounds (x0 xmin xmax : ℚ)
    (ranks : List (List (ℚ × ℚ × ℚ))) (sq : ℚ → ℚ)
    (hxmin : 0 ≤ xmin) (hxmax : 0 ≤ xmax)
    (hsq : ∀ v ∈ globalUnique x0 xmin xmax ranks, 0 ≤ sq v ∧ sq v ^ 2 = v) :
    ∀ w ∈ uniqueNorms x0 xmin xmax ranks sq, xmin ≤ w ∧ w ≤ xmax := by
  intro w hw
  rw [uniqueNorms] at hw
  obtain ⟨v, hv, rfl⟩ := List.mem_map.mp hw
  obtain ⟨h1, h2⟩ := globalUnique_bounds x0 xmin xmax ranks v hv
  obtain ⟨hpos, hsqv⟩ := hsq v hv
  exact ⟨le_of_sq_le_sq hxmin hpos (by rw [hsqv]; exact h1),
         le_of_sq_le_sq hpos hxmax (by rw [hsqv]; exact h2)⟩

/-- C8: on success, `find_unique_edges` returns a strictly sorted edge
sequence whose first element is `xmin`, whose interior elements are the
midpoints between consecutive globally deduplicated norm values, and
whose last element is `min (last norm + half the last gap) xmax`; each
unique norm value lies inside its own bin. -/
theorem findUniqueEdges_spec (x0 xmin xmax : ℚ)
    (ranks : List (List (ℚ × ℚ × ℚ))) (sq : ℚ → ℚ) (edges : List ℚ)
    (hx0 : x0 ≠ 0) (hxmin : 0 ≤ xmin) (hxmax : 0 ≤ xmax)
    (hsq : ∀ v ∈ globalUnique x0 xmin xmax ranks, 0 ≤ sq v ∧ sq v ^ 2 = v)
    (hok : findUniqueEdges x0 xmin xmax ranks sq = Except.ok edges) :
    edges.length = (uniqueNorms x0 xmin xmax ranks sq).length + 1 ∧
    edges.getD 0 0 = xmin ∧
    (∀ i, i + 1 < (uniqueNorms x0 xmin xmax ranks sq).length →
      edges.getD (i + 1) 0 =
        ((uniqueNorms x0 xmin xmax ranks sq).getD i 0 +
         (uniqueNorms x0 xmin xmax ranks sq).getD (i + 1) 0) / 2) ∧
    edges.getD (uniqueNorms x0 xmin xmax ranks sq).length 0 =
      lastEdgeOf (uniqueNorms x0 xmin xmax ranks sq) xmax ∧
    List.Sorted (· < ·) edges ∧
    (∀ i, i < (uniqueNorms x0 xmin xmax ranks sq).length →
      edges.getD i 0 ≤ (uniqueNorms x0 xmin xmax ranks sq).getD i 0 ∧
      (uniqueNorms x0 xmin xmax ranks sq).getD i 0 ≤ edges.getD (i + 1) 0) := by
  simp only [findUniqueEdges] at hok
  set fx := uniqueNorms x0 xmin xmax ranks sq with hfxdef
  by_cases hlen : fx.length < 2
  · rw [if_pos hlen] at hok
    exact absurd hok (by simp)
  rw [if_neg hlen] at hok
  injection hok with hed
  subst hed
  have hn2 : 2 ≤ fx.length := not_lt.mp hlen
  obtain ⟨m, hm⟩ : ∃ m, fx.length = m + 2 := ⟨fx.length - 2, by omega⟩
  have hml : (midEdges fx).length = m + 1 := by rw [midEdges_length]; omega
  have hs : List.Sorted (· < ·) fx :=
    uniqueNorms_sorted x0 xmin xmax ranks sq hx0 hsq
  have hbd := uniqueNorms_bounds x0 xmin xmax ranks sq hxmin hxmax hsq
  have hmem : ∀ i, i < fx.length → fx.getD i 0 ∈ fx := by
    intro i hi
    rw [List.getD_eq_getElem fx 0 hi]
    exact List.getElem_mem hi
  have hconsec : ∀ i, i + 1 < fx.length → fx.getD i 0 < fx.getD (i + 1) 0 := by
    intro i hi
    have h1 : i < fx.length := by omega
    rw [List.getD_eq_getElem fx 0 h1, List.getD_eq_getElem fx 0 hi]
    exact List.pairwise_iff_getElem.mp hs i (i + 1) h1 hi (Nat.lt_succ_self i)
  have hx0le : xmin ≤ fx.getD 0 0 := (hbd _ (hmem 0 (by omega))).1
  have hlastle : fx.getD (m + 1) 0 ≤ xmax := (hbd _ (hmem (m + 1) (by omega))).2
  set E := xmin :: (midEdges fx ++ [lastEdgeOf fx xmax]) with hE
  have hC1 : E.length = fx.length + 1 := by
    rw [hE]
    simp [hml, hm]
  have hC3 : ∀ i, i + 1 < fx.length →
      E.getD (i + 1) 0 = (fx.getD i 0 + fx.getD (i + 1) 0) / 2 := by
    intro i hi
    rw [hE, List.getD_cons_succ,
      List.getD_append _ _ _ i (by rw [hml]; omega)]
    exact midEdges_getD fx i hi
  have hC4 : E.getD fx.length 0 = lastEdgeOf fx xmax := by
    rw [hE, hm]
    show (midEdges fx ++ [lastEdgeOf fx xmax]).getD (m + 1) 0 = _
    rw [List.getD_append_right _ _ _ _ (le_of_eq hml), hml, Nat.sub_self]
    rfl
  have hC4' : E.getD (m + 2) 0 = lastEdgeOf fx xmax := by rw [← hm]; exact hC4
  have hstep : ∀ i, i < m + 2 → E.getD i 0 < E.getD (i + 1) 0 := by
    intro i hi
    rcases i with _ | j
    · rw [hE, List.getD_cons_zero, ← hE, hC3 0 (by omega)]
      have h01 := hconsec 0 (by omega)
      linarith
    · by_cases hj : j + 2 < m + 2
      · rw [hC3 j (by omega), hC3 (j + 1) (by omega)]
        have ha := hconsec j (by omega)
        have hb := hconsec (j + 1) (by omega)
        linarith
      · have hjm : j = m := by omega
        subst hjm
        have hidx : j + 1 + 1 = j + 2 := by omega
        rw [hC3 j (by omega), hidx, hC4', lastEdgeOf, hm]
        have e1 : j + 2 - 1 = j + 1 := by omega
        have e2 : j + 2 - 2 = j := by omega
        rw [e1, e2]
        have hcj := hconsec j (by omega)
        apply lt_min
        · linarith
        · linarith
  have hchain : List.Chain' (· < ·) E := by
    rw [List.chain'_iff_get]
    intro i hi
    have hi' : i < m + 2 := by
      rw [hC1, hm] at hi
      omega
    have h1 : i < E.length := by rw [hC1, hm]; omega
    have h2 : i + 1 < E.length := by rw [hC1, hm]; omega
    have := hstep i hi'
    rw [List.getD_eq_getElem E 0 h1, List.getD_eq_getElem E 0 h2] at this
    simpa using this
  have hsortedE : List.Sorted (· < ·) E := List.chain'_iff_pairwise.mp hchain
  have hC6 : ∀ i, i < fx.length →
      E.getD i 0 ≤ fx.getD i 0 ∧ fx.getD i 0 ≤ E.getD (i + 1) 0 := by
    intro i hi
    constructor
    · rcases i with _ | j
      · rw [hE, List.getD_cons_zero]
        exact hx0le
      · rw [hC3 j (by omega)]
        have := hconsec j (by omega)
        linarith
    · by_cases hi2 : i + 1 < fx.length
      · rw [hC3 i hi2]
        have := hconsec i hi2
        linarith
      · have him : i = m + 1 := by omega
        subst him
        have hidx : m + 1 + 1 = m + 2 := by omega
        rw [hidx, hC4', lastEdgeOf, hm]
        have e1 : m + 2 - 1 = m + 1 := by omega
        have e2 : m + 2 - 2 = m := by omega
        rw [e1, e2]
        have hcm := hconsec m (by omega)
        apply le_min
        · linarith
        · exact hlastle
  exact ⟨hC1, by rw [hE]; rfl, hC3, hC4, hsortedE, hC6⟩

theorem findUniqueEdges_spec_witness :
    findUniqueEdges 2 0 5 uniqueEdgesData sqrtOn = Except.ok [0, 7 / 2, 9 / 2] ∧
    List.Sorted (· < ·) ([0, 7 / 2, 9 / 2] : List ℚ) ∧
    ([0, 7 / 2, 9 / 2] : List ℚ).getD 0 0 = 0 ∧
    ([0, 7 / 2, 9 / 2] : List ℚ).getD 1 0 = (3 + 4) / 2 ∧
    ([0, 7 / 2, 9 / 2] : List ℚ).getD 2 0 = lastEdgeOf [3, 4] 5 := by
  have h9 : roundKey 2 9 = 9 := by
    rw [roundKey, truncQ, if_pos (by norm_num), Int.floor_eq_iff]
    constructor <;> norm_num
  have h16 : roundKey 2 16 = 16 := by
    rw [roundKey, truncQ, if_pos (by norm_num), Int.floor_eq_iff]
    constructor <;> norm_num
  have hglob : globalUnique 2 0 5 uniqueEdgesData = [9, 16] := by
    norm_num [globalUnique, uniqueLocal, uniqueSorted, uniqueEdgesData,
      h9, h16, List.dedup_cons_of_not_mem, List.dedup_nil, List.not_mem_nil, List.mem_singleton, List.insertionSort,
      List.orderedInsert, List.find?, List.filter]
  have hfx : uniqueNorms 2 0 5 uniqueEdgesData sqrtOn = [3, 4] := by
    rw [uniqueNorms, hglob]
    norm_num [sqrtOn]
  have hsq : ∀ v ∈ globalUnique 2 0 5 uniqueEdgesData,
      0 ≤ sqrtOn v ∧ sqrtOn v ^ 2 = v := by
    rw [hglob]
    intro v hv
    rcases List.mem_cons.mp hv with rfl | hv2
    · norm_num [sqrtOn]
    · rcases List.mem_singleton.mp hv2 with rfl
      norm_num [sqrtOn]
  have hok : findUniqueEdges 2 0 5 uniqueEdgesData sqrtOn =
      Except.ok [0, 7 / 2, 9 / 2] := by
    simp only [findUniqueEdges, hfx]
    norm_num [midEdges, lastEdgeOf, min_def]
  have hspec := findUniqueEdges_spec 2 0 5 uniqueEdgesData sqrtOn
    [0, 7 / 2, 9 / 2] (by norm_num) le_rfl (by norm_num) hsq hok
  rw [hfx] at hspec
  refine ⟨hok, hspec.2.2.2.2.1, hspec.2.1, ?_, ?_⟩
  · have := hspec.2.2.1 0 (by norm_num)
    rw [this]
    norm_num
  · exact hspec.2.2.2.1

end PyPower
